import Mathlib

/-!
Verification development for the LLMPipeline repository.

Texts are modelled as `List Char`.  Each Python text-processing function of
the repository is translated into an executable Lean function; the regular
expressions of the source are translated into equivalent deterministic
scanners (each regex used by the source is simple enough that its
backtracking behaviour is deterministic, as argued at each definition).
Python `\s` is modelled over the ASCII whitespace characters, and `re.I`
case folding over ASCII letters, which covers every text the pipeline
handles.
-/

namespace LLMPipeline

/-- ASCII model of Python's `\s` / `str.strip` whitespace class. -/
def isSpaceChar (c : Char) : Bool :=
  c = ' ' ∨ c = '\t' ∨ c = '\n' ∨ c = '\r' ∨ c = '\x0b' ∨ c = '\x0c'

/-- ASCII model of Python's `\w` (used for the `\b` word boundary). -/
def isWordChar (c : Char) : Bool :=
  ('a' ≤ c ∧ c ≤ 'z') ∨ ('A' ≤ c ∧ c ≤ 'Z') ∨ ('0' ≤ c ∧ c ≤ '9') ∨ c = '_'

/-- ASCII case folding, as a code point: `A`-`Z` map to `a`-`z`. -/
def lcn (c : Char) : Nat :=
  if 65 ≤ c.toNat ∧ c.toNat ≤ 90 then c.toNat + 32 else c.toNat

/-- Case-insensitive character comparison (model of `re.IGNORECASE`). -/
def caselessEq (a b : Char) : Bool := lcn a = lcn b

/-- `str.lstrip` / skipping a `\s*`. -/
def skipWs (s : List Char) : List Char := s.dropWhile isSpaceChar

/-- `str.rstrip`. -/
def rstripL (s : List Char) : List Char := (s.reverse.dropWhile isSpaceChar).reverse

/-- `str.strip`. -/
def stripBoth (s : List Char) : List Char := rstripL (skipWs s)

/-- Number of (possibly overlapping) start positions of `m` in `s`. -/
def countSub (m : List Char) : List Char → Nat
  | [] => if m.isPrefixOf ([] : List Char) then 1 else 0
  | c :: t => (if m.isPrefixOf (c :: t) then 1 else 0) + countSub m t

/-- Python's `m in s` substring test. -/
def containsSub (m s : List Char) : Bool := countSub m s ≠ 0

/-- Python's `s.replace(m, r)`: replace every non-overlapping occurrence,
scanning left to right. -/
def replaceAll (m r : List Char) (s : List Char) : List Char :=
  match s with
  | [] => []
  | c :: t =>
    if h : m ≠ [] ∧ m.isPrefixOf (c :: t) then
      r ++ replaceAll m r (List.drop m.length (c :: t))
    else
      c :: replaceAll m r t
termination_by s.length
decreasing_by
  · simp only [List.length_drop, List.length_cons]
    exact Nat.sub_lt (Nat.succ_pos _) (List.length_pos.mpr h.1)
  · simp

/-- Strip a literal (case-sensitive) from the front, returning the rest. -/
def stripLit : List Char → List Char → Option (List Char)
  | [], s => some s
  | _ :: _, [] => none
  | p :: pr, c :: t => if p = c then stripLit pr t else none

/-- Strip a literal case-insensitively from the front, returning the rest. -/
def caselessStrip : List Char → List Char → Option (List Char)
  | [], s => some s
  | _ :: _, [] => none
  | p :: pr, c :: t => if caselessEq p c then caselessStrip pr t else none

/-! ## Extractor (`prepost_extractor.py`)

Grammar 1 is the pair of regexes `(?mis)\\pre\s*\{(.*?)\}` and
`(?mis)\\post\s*\{(.*?)\}`.  At a given start position such a regex is
deterministic: the literal tag, then a maximal whitespace run (the next
character, `{`, is not whitespace, so no backtracking into `\s*` can
succeed), then the lazy group ends at the first following `}` (the pattern
ends right after it).  `re.search` tries start positions left to right. -/

def preTag : List Char := ['\\', 'p', 'r', 'e']
def postTag : List Char := ['\\', 'p', 'o', 's', 't']

/-- `\s*c`: skip whitespace, then require the character `c`. -/
def expectChar (c : Char) (s : List Char) : Option (List Char) :=
  match skipWs s with
  | [] => none
  | x :: t => if x = c then some t else none

/-- Lazy `(.*?)\}`: capture up to the first `}`, and the rest after it. -/
def grabToClose : List Char → Option (List Char × List Char)
  | [] => none
  | c :: t =>
    if c = '}' then some ([], t)
    else (grabToClose t).map (fun p => (c :: p.1, p.2))

/-- Attempt `tag\s*\{(.*?)\}` at the very start of `s`; returns the capture. -/
def tagMatchAt (tag : List Char) (s : List Char) : Option (List Char) :=
  (caselessStrip tag s).bind fun s1 =>
  (expectChar '{' s1).bind fun t =>
  (grabToClose t).map Prod.fst

/-- `re.search`: first start position (scanning left to right, including the
empty suffix) at which the matcher succeeds. -/
def scanFirst {β : Type} (f : List Char → Option β) : List Char → Option β
  | [] => f []
  | c :: t =>
    match f (c :: t) with
    | some b => some b
    | none => scanFirst f t

def findTag (tag : List Char) (s : List Char) : Option (List Char) :=
  scanFirst (tagMatchAt tag) s

/-! Grammar 2: `_PROBLEM_RE`, i.e.
`(?mis)\\problem\s*\{\s*(?P<pre>.*?)\s*->\s*\{.*?\}\s*\\<\s*\{.*?\}\s*\\>\s*(?P<post>.*?)\s*\}`.
The scanners below realise its backtracking order: each lazy group is
extended one character at a time, and at each stop the rest of the pattern
is attempted; every `\s*` is followed by a non-whitespace mandatory
character, so each `\s*` is deterministic maximal munch. A `\s*` directly
preceding a lazy group contributes nothing beyond shifting whitespace out
of the capture, which the final `strip` erases anyway; it is modelled as
maximal munch as well. -/

def probLit : List Char := ['\\', 'p', 'r', 'o', 'b', 'l', 'e', 'm']
def arrowLit : List Char := ['-', '>']
def lAngleLit : List Char := ['\\', '<']
def rAngleLit : List Char := ['\\', '>']

/-- Does `\s*\}` match here?  (End of the `problem` pattern.) -/
def closesHere (s : List Char) : Bool :=
  (expectChar '}' s).isSome

/-- Lazy `(?P<post>.*?)\s*\}`: the shortest capture after which `\s*\}`
matches. -/
def postScan : List Char → Option (List Char)
  | [] => none
  | c :: t =>
    if closesHere (c :: t) then some []
    else (postScan t).map (fun p => c :: p)

/-- Continuation after the `}` that closes the program fragment:
`\s*\\>\s*(?P<post>.*?)\s*\}`. -/
def progClose (s : List Char) : Option (List Char) :=
  (stripLit rAngleLit (skipWs s)).bind fun y =>
  postScan (skipWs y)

/-- Lazy `.*?` of the program fragment: at each `}` try `progClose`,
otherwise keep extending. -/
def lazyProgBody : List Char → Option (List Char)
  | [] => none
  | c :: t =>
    if c = '}' then
      match progClose t with
      | some p => some p
      | none => lazyProgBody t
    else lazyProgBody t

/-- Continuation after the `}` that closes the update block:
`\s*\\<\s*\{` then the program fragment. -/
def updClose (s : List Char) : Option (List Char) :=
  (stripLit lAngleLit (skipWs s)).bind fun v =>
  (expectChar '{' v).bind fun w =>
  lazyProgBody w

/-- Lazy `.*?` of the update block: at each `}` try `updClose`. -/
def lazyUpdBody : List Char → Option (List Char)
  | [] => none
  | c :: t =>
    if c = '}' then
      match updClose t with
      | some p => some p
      | none => lazyUpdBody t
    else lazyUpdBody t

/-- After the `->`: `\s*\{` then the update block. -/
def afterArrow (s : List Char) : Option (List Char) :=
  (expectChar '{' s).bind fun u => lazyUpdBody u

/-- `\s*->` at this position. -/
def arrowCheck (s : List Char) : Option (List Char) :=
  stripLit arrowLit (skipWs s)

/-- Lazy `(?P<pre>.*?)`: extend the capture one character at a time; at each
stop try `\s*->` and, if it matches, the rest of the pattern. -/
def preScan (acc : List Char) : List Char → Option (List Char × List Char)
  | [] => none
  | c :: t =>
    match (arrowCheck (c :: t)).bind afterArrow with
    | some post => some (acc.reverse, post)
    | none => preScan (c :: acc) t

/-- The whole `_PROBLEM_RE` attempted at the start of `s`; returns the raw
`pre` and `post` captures. -/
def probMatchAt (s : List Char) : Option (List Char × List Char) :=
  (caselessStrip probLit s).bind fun s1 =>
  (expectChar '{' s1).bind fun s2 =>
  preScan [] (skipWs s2)

def probSearch (s : List Char) : Option (List Char × List Char) :=
  scanFirst probMatchAt s

/-- `extract_pre_post_from_key` (on the file's text): grammar 1 first (both
tags must match), then grammar 2, else `ValueError`. -/
def extract_pre_post_from_key (txt : List Char) :
    Except Unit (List Char × List Char) :=
  match findTag preTag txt, findTag postTag txt with
  | some x, some y => .ok (stripBoth x, stripBoth y)
  | _, _ =>
    match probSearch txt with
    | some (p, q) => .ok (stripBoth p, stripBoth q)
    | none => .error ()

/-! ## Splicer (`orchestrator.py`, `_splice_llm_code`)

The fallback path uses `(?s)\\program\s*\{\s*(\{.*?\})\s*\}\s*\\endprogram`
(case-sensitive, no `re.I`).  At a start position it is deterministic: the
literal, maximal whitespace, `{`, maximal whitespace, the group's `{`, then
the lazy group body ends at the first `}` after which `\s*\}\s*\\endprogram`
matches. -/

def markerStr : List Char := "//@SYNTHESIS_HOLE".toList

def progLit : List Char :=
  ['\\', 'p', 'r', 'o', 'g', 'r', 'a', 'm']
def endProgLit : List Char :=
  ['\\', 'e', 'n', 'd', 'p', 'r', 'o', 'g', 'r', 'a', 'm']

/-- Sanitization of the LLM code (lines 45-50 of `orchestrator.py`): strip,
drop a leading-`{`/trailing-`}` pair, ensure a trailing `;`. -/
def normalizeCode (llm : List Char) : List Char :=
  let code := stripBoth llm
  let code :=
    if code.head? = some '{' ∧ code.getLast? = some '}' then
      stripBoth ((code.drop 1).dropLast)
    else code
  if code ≠ [] ∧ (rstripL code).getLast? ≠ some ';' then code ++ [';']
  else code

/-- Does `\s*\}\s*\\endprogram` match here (after the group's last `}`)? -/
def checkEndProg (s : List Char) : Bool :=
  ((expectChar '}' s).bind fun t => stripLit endProgLit (skipWs t)).isSome

/-- Lazy `.*?` inside the group `(\{.*?\})`: content up to the first `}`
whose continuation matches, plus the rest after that `}`. -/
def lazyCloseProg : List Char → Option (List Char × List Char)
  | [] => none
  | c :: t =>
    if c = '}' ∧ checkEndProg t then some ([], t)
    else (lazyCloseProg t).map (fun p => (c :: p.1, p.2))

/-- `prog_re` attempted at the start of `s`: on success returns
(consumed text before the group, the group `m.group(1)`, the rest of `s`
from `m.end(1)` on). -/
def progMatchAt (s : List Char) : Option (List Char × List Char × List Char) :=
  (stripLit progLit s).bind fun s1 =>
  (expectChar '{' s1).bind fun s2 =>
  (expectChar '{' s2).bind fun s3 =>
  (lazyCloseProg s3).map fun p =>
    (progLit ++ s1.takeWhile isSpaceChar ++ '{' :: s2.takeWhile isSpaceChar,
     '{' :: (p.1 ++ ['}']), p.2)

/-- `prog_re.search`, keeping the text before the match start. -/
def progScanGo (acc : List Char) :
    List Char → Option (List Char × List Char × List Char)
  | [] =>
    (progMatchAt []).map (fun t => (acc.reverse ++ t.1, t.2.1, t.2.2))
  | c :: t =>
    match progMatchAt (c :: t) with
    | some u => some (acc.reverse ++ u.1, u.2.1, u.2.2)
    | none => progScanGo (c :: acc) t

/-- Search for the program block: on success `src = pre ++ group ++ rest`
where `pre` ends at `m.start(1)` and `rest` starts at `m.end(1)`. -/
def progSearch (s : List Char) : Option (List Char × List Char × List Char) :=
  progScanGo [] s

/-- `str.rfind(c)`: index of the last occurrence. -/
def rfindChar (c : Char) : List Char → Option Nat
  | [] => none
  | x :: t =>
    match rfindChar c t with
    | some i => some (i + 1)
    | none => if x = c then some 0 else none

inductive SpliceError where
  | locationNotFound   -- "Could not locate \program { ... } block in .key"
  | malformedBlock     -- "Malformed program block: missing closing '}'"
  deriving DecidableEq, Repr

/-- `_splice_llm_code` as a text transformation (the function reads
`original_key_path` and writes the patched text to `output_key_path`;
file handling is modelled by taking and returning the text). -/
def _splice_llm_code (src llm : List Char) : Except SpliceError (List Char) :=
  let code := normalizeCode llm
  if containsSub markerStr src then
    .ok (replaceAll markerStr code src)
  else
    match progSearch src with
    | none => .error .locationNotFound
    | some (p, jblock, rest) =>
      match rfindChar '}' jblock with
      | none => .error .malformedBlock
      | some idx =>
        .ok (p ++ (rstripL (jblock.take idx) ++
               '\n' :: (code ++ '\n' :: jblock.drop idx)) ++ rest)

/-! ## Sanitizer (`orchestrator.py`, `_sanitize_key_file`)

Each pattern `(?mi)^\s*\\TAG\b.*\n` matches only at line starts (`^`), and
a match always ends right after a `\n`, so `re.sub(..., '')` deletes
whole-line regions: the `\s*` may absorb a run of whitespace-only lines
immediately preceding the directive line (plus that line's leading
whitespace), then the tag, the rest of the line, and its terminating
newline.  A directive line lacking a final `\n` never matches.  Deletion
is modelled on the line decomposition of the text. -/

/-- Split into lines, each keeping its `\n`; a last line without `\n` is
kept as is; no empty line is produced (model of iterating
`file.readline`/`re` line structure). -/
def splitLinesGo (acc : List Char) : List Char → List (List Char)
  | [] => if acc = [] then [] else [acc.reverse]
  | c :: t =>
    if c = '\n' then (acc.reverse ++ ['\n']) :: splitLinesGo [] t
    else splitLinesGo (c :: acc) t

def splitLines (s : List Char) : List (List Char) := splitLinesGo [] s

def isBlankLine (l : List Char) : Bool := l ≠ [] ∧ l.all isSpaceChar

/-- A line removed by pattern `^\s*\\TAG\b.*\n`: optional leading
whitespace, the tag (case-insensitively), a word boundary, anything, and a
terminating newline. -/
def isDirLine (tag : List Char) (l : List Char) : Bool :=
  match caselessStrip tag (skipWs l) with
  | some (c :: _) => ¬ isWordChar c ∧ l.getLast? = some '\n'
  | some [] => false
  | none => false

/-- Is this position the start of a run of blank lines (possibly empty)
followed by a directive line?  (Then the `\s*` of the pattern absorbs the
blank run and the whole region is deleted.) -/
def blanksThenDir (tag : List Char) : List (List Char) → Bool
  | [] => false
  | l :: rest => isDirLine tag l ∨ (isBlankLine l ∧ blanksThenDir tag rest)

/-- One `re.sub(r'(?mi)^\s*\\TAG\b.*\n', '', ·)` pass, on lines. -/
def removeDir (tag : List Char) : List (List Char) → List (List Char)
  | [] => []
  | l :: rest =>
    if isDirLine tag l then removeDir tag rest
    else if isBlankLine l ∧ blanksThenDir tag rest then removeDir tag rest
    else l :: removeDir tag rest

def javaSourceTag : List Char := "\\javaSource".toList
def classpathTag : List Char := "\\classpath".toList
def bootclasspathTag : List Char := "\\bootclasspath".toList

def sanitizeLines (ls : List (List Char)) : List (List Char) :=
  removeDir bootclasspathTag (removeDir classpathTag (removeDir javaSourceTag ls))

/-- `_sanitize_key_file` as a text transformation (the function reads the
file, applies the three substitutions in order, and writes it back). -/
def _sanitize_key_file (txt : List Char) : List Char :=
  (sanitizeLines (splitLines txt)).flatten

/-! ## Synthesis client (`llm_synthesizer.py`, `synthesize_java_update`)

The network call and the parsing of the remote model's reply are the
external boundary; a call's observable outcome is either a transport-level
fault (`httpx.TimeoutException`/`ReadError`/`ConnectError`), some other
exception, or a reply whose parsed code is some string.  `_call` raises on
a fault and on empty parsed code.  `synthesize_java_update` builds the
request once (`payload_text`/`user_content` are computed before `_call` is
defined and closed over), tries the primary model, and on ANY exception
calls the fallback exactly once with the same request; a fallback failure
propagates.  The request is kept abstract (type `α`): no claim inspects
its content beyond identity and the loop flag, which the pipeline model
below records explicitly. -/

inductive LLMOutcome where
  | transportFault                  -- httpx timeout / read / connect error
  | otherError                      -- any other exception from the call
  | reply (java : List Char)        -- parsed code of a successful response
  deriving DecidableEq, Repr

inductive SynthError where
  | transport    -- a transport fault escaped `_call`
  | other        -- another exception escaped `_call`
  | emptyCode    -- "Model returned empty 'java' code."
  deriving DecidableEq, Repr

inductive ModelChoice where
  | primaryModel     -- MODEL_PRIMARY
  | fallbackModel    -- MODEL_FALLBACK
  deriving DecidableEq, Repr

/-- `_call(model)`: raise on fault; parse; raise if the code is empty. -/
def callModel (o : LLMOutcome) : Except SynthError (List Char) :=
  match o with
  | .transportFault => .error .transport
  | .otherError => .error .other
  | .reply java => if java = [] then .error .emptyCode else .ok java

/-- `synthesize_java_update`, returning the result together with the list
of (model, request) invocations actually performed. -/
def synthesize_java_update {α : Type} (req : α)
    (primary fallback : LLMOutcome) :
    Except SynthError (List Char) × List (ModelChoice × α) :=
  match callModel primary with
  | .ok java => (.ok java, [(.primaryModel, req)])
  | .error _ =>
    (callModel fallback, [(.primaryModel, req), (.fallbackModel, req)])

/-! ## Loop-update flag (`orchestrator.py`) -/

/-- The values `info["isLoopUpdate"]` can hold (CLI gives a bool; a comment
gives a bool; callers may also pass a string or nothing). -/
inductive PyVal where
  | bool (b : Bool)
  | none
  | str (s : List Char)
  deriving DecidableEq, Repr

/-- `_coerce_to_bool`. -/
def _coerce_to_bool (v : PyVal) : Bool :=
  match v with
  | .bool b => b
  | .none => false
  | .str s =>
    let t := (stripBoth s).map (fun c => Char.ofNat (lcn c))
    t = "true".toList ∨ t = "1".toList ∨ t = "yes".toList ∨ t = "y".toList

/-- Python truthiness `bool(v)` (applied when building the payload). -/
def pyTruthy (v : PyVal) : Bool :=
  match v with
  | .bool b => b
  | .none => false
  | .str s => s ≠ []

/-- The pattern `(?mi)//\s*isLoopUpdate\s*:\s*\{\s*(true|false)\s*\}\s*;`
attempted at a position inside one line.  All `\s*` are deterministic
(followed by non-whitespace mandatory characters); `true` cannot start
where `false` does, so the alternation is deterministic. -/
def loopUpdateMatchAt (s : List Char) : Option Bool :=
  (stripLit ['/', '/'] s).bind fun s1 =>
  (caselessStrip "isloopupdate".toList (skipWs s1)).bind fun s2 =>
  (expectChar ':' s2).bind fun s3 =>
  (expectChar '{' s3).bind fun s4 =>
  let s4' := skipWs s4
  match caselessStrip "true".toList s4' with
  | some s5 =>
    ((expectChar '}' s5).bind fun s6 =>
      (expectChar ';' s6)).map (fun _ => true)
  | none =>
    (caselessStrip "false".toList s4').bind fun s5 =>
    ((expectChar '}' s5).bind fun s6 =>
      (expectChar ';' s6)).map (fun _ => false)

/-- `_parse_is_loop_update_from_key`: scan at most the first 50 lines, and
return the value of the first line containing a match. -/
def _parse_is_loop_update_from_key (txt : List Char) : Option Bool :=
  let lines := (splitLines txt).take 50
  lines.findSome? (fun l => scanFirst loopUpdateMatchAt l)

/-! ## `_insert_java_source_after_invariant` (`orchestrator.py`) -/

/-- Substring test used for `re.search(r'isloopinvariant', line, re.I)`. -/
def containsCaseless (m s : List Char) : Bool :=
  (scanFirst (fun t => caselessStrip m t) s).isSome

/-- Append `\n` to the inserted line when missing. -/
def withNL (l : List Char) : List Char :=
  if l.getLast? = some '\n' then l else l ++ ['\n']

def insertAfterInv (ins : List Char) : List (List Char) → List (List Char)
  | [] => []
  | l :: rest =>
    if containsCaseless "isloopinvariant".toList l then
      l :: withNL ins :: rest
    else l :: insertAfterInv ins rest

def _insert_java_source_after_invariant (txt ins : List Char) : List Char :=
  let lines := splitLines txt
  if lines.any (fun l => containsSub (stripBoth ins) l) then txt
  else if lines.any (fun l => containsCaseless "isloopinvariant".toList l) then
    (insertAfterInv ins lines).flatten
  else (withNL ins :: lines).flatten

/-! ## Verifier invocation (`keyRunner.py`, `run_key`) -/

/-- Outcome of the external verifier invocation: the process ran to
completion with some exit status, or the invocation itself failed (missing
`java`, spawn error, ...). -/
inductive ProcOutcome where
  | completed (rc : Int)
  | invocationError
  deriving DecidableEq, Repr

inductive PipeError where
  | specNotFound          -- ValueError from the extractor
  | missingCbcModel       -- FileNotFoundError for the cbcmodel
  | varsError             -- error from read_vars_from_corc_model
  | synthesisFailed (e : SynthError)
  | spliceFailed (e : SpliceError)
  | missingKeyJar         -- FileNotFoundError for the KeY jar
  | verifierInvocation    -- uncaught exception from run_key
  deriving DecidableEq, Repr

/-- `run_key`: `subprocess.run(..., check=True)` raises
`CalledProcessError` exactly on a non-zero exit status, which is caught
and its `returncode` returned — so a completed run always yields its exit
status.  Every other exception (preflight `FileNotFoundError`, `OSError`
from spawning, ...) is not caught and propagates. -/
def run_key (o : ProcOutcome) : Except PipeError Int :=
  match o with
  | .completed rc => .ok rc
  | .invocationError => .error .verifierInvocation

/-! ## Pipeline controller (`orchestrator.py`, `execute_llm_pipeline`)

External collaborators (filesystem existence checks, the variable
resolver, the two model calls, the verifier process) are environment
parameters; the text transformations are the functions above.  The model
records, in source order, the files written to the working folder and the
`is_loop_update` value put into the synthesis payload. -/

inductive WriteEvent where
  | tempKey (content : List Char)       -- sanitized working copy
  | javaCodeTxt (content : List Char)   -- persisted snippet javaCode.txt
  | verifyKey (content : List Char)     -- *_withLLM.key submitted to KeY
  | timesTxt                            -- times.txt
  deriving DecidableEq, Repr

structure PipelineEnv where
  keyText : List Char            -- content of the original .key file
  suppliedFlag : Option PyVal    -- info.get("isLoopUpdate") at entry
  cbcmodelFound : Bool
  varsOk : Bool                  -- read_vars_from_corc_model succeeds
  primary : LLMOutcome
  fallback : LLMOutcome
  keyJarFound : Bool
  verifier : ProcOutcome

structure PipelineRun where
  outcome : Except PipeError Bool
  writes : List WriteEvent
  synthFlag : Option Bool        -- payload "is_loop_update", if synthesis ran

/-- The hard-coded `\javaSource "...evalData_noPredicates";` line inserted
into the verification key. -/
def javaSrcLine : List Char :=
  "\\javaSource \"C:\\Users\\hanna\\OneDrive\\Dokumente\\LLMPipeline\\evalData_noPredicates\";".toList

def execute_llm_pipeline (env : PipelineEnv) : PipelineRun :=
  -- copy & sanitize the working key
  let tempText := _sanitize_key_file env.keyText
  let w0 : List WriteEvent := [.tempKey tempText]
  -- CLI flag preferred; otherwise the //isLoopUpdate:{...}; comment
  let supplied := env.suppliedFlag.getD (.bool false)
  let infoFlag : PyVal :=
    if _coerce_to_bool supplied then supplied
    else
      match _parse_is_loop_update_from_key tempText with
      | some b => .bool b
      | none => supplied
  -- extract PRE/POST from the sanitized copy
  match extract_pre_post_from_key tempText with
  | .error _ => ⟨.error .specNotFound, w0, none⟩
  | .ok _ =>
    if ¬ env.cbcmodelFound then ⟨.error .missingCbcModel, w0, none⟩
    else if ¬ env.varsOk then ⟨.error .varsError, w0, none⟩
    else
      -- LLM synthesis; the payload carries bool(is_loop_update)
      let flagSent := pyTruthy infoFlag
      match (synthesize_java_update flagSent env.primary env.fallback).1 with
      | .error e => ⟨.error (.synthesisFailed e), w0, some flagSent⟩
      | .ok code =>
        -- persist snippet, then splice and insert the javaSource line
        let w1 := w0 ++ [.javaCodeTxt code]
        match _splice_llm_code tempText code with
        | .error e => ⟨.error (.spliceFailed e), w1, some flagSent⟩
        | .ok patched =>
          let final := _insert_java_source_after_invariant patched javaSrcLine
          let w2 := w1 ++ [.verifyKey final]
          if ¬ env.keyJarFound then ⟨.error .missingKeyJar, w2, some flagSent⟩
          else
            match run_key env.verifier with
            | .error e => ⟨.error e, w2, some flagSent⟩
            | .ok rc => ⟨.ok (rc = 0), w2 ++ [.timesTxt], some flagSent⟩

/-- Shape of a newline-terminated line produced by `splitLines`. -/
def lineShape (L : List Char) : Prop :=
  ∃ c, L = c ++ ['\n'] ∧ '\n' ∉ c

/-- Shape of the last line: newline-terminated, or non-empty without a
newline. -/
def lastShape (L : List Char) : Prop :=
  lineShape L ∨ (L ≠ [] ∧ '\n' ∉ L)

/-- Invariant of the line decomposition of a text: every line but the last
is newline-terminated; the last may lack the newline. -/
def wfLines : List (List Char) → Prop
  | [] => True
  | [L] => lastShape L
  | L :: rest => lineShape L ∧ wfLines rest

deriving instance DecidableEq for Except

/-! ## Helper lemmas: characters and whitespace -/

lemma char_toNat_inj {a b : Char} (h : a.toNat = b.toNat) : a = b := by
  have h1 := Char.ofNat_toNat a
  have h2 := Char.ofNat_toNat b
  rw [← h1, ← h2, h]

lemma caselessEq_refl (c : Char) : caselessEq c c = true := by
  simp [caselessEq]

lemma lcn_eq_backslash {a : Char} (h : lcn a = lcn '\\') : a = '\\' := by
  have hb : lcn '\\' = 92 := by decide
  rw [hb] at h
  unfold lcn at h
  split at h
  · exfalso; omega
  · exact char_toNat_inj (by rw [h]; decide)

lemma caselessEq_backslash {a : Char} (h : a ≠ '\\') :
    caselessEq '\\' a = false := by
  by_contra hc
  apply h
  have : lcn '\\' = lcn a := by
    simpa [caselessEq] using hc
  exact lcn_eq_backslash this.symm

lemma isSpaceChar_ne_backslash {c : Char} (h : isSpaceChar c = true) :
    c ≠ '\\' := by
  rcases (by simpa [isSpaceChar] using h :
      c = ' ' ∨ c = '\t' ∨ c = '\n' ∨ c = '\r' ∨ c = '\x0b' ∨ c = '\x0c')
    with h | h | h | h | h | h <;> subst h <;> decide

/-! ## Helper lemmas: strips -/

lemma skipWs_append_of_ws {w : List Char} (hw : ∀ c ∈ w, isSpaceChar c)
    (s : List Char) : skipWs (w ++ s) = skipWs s := by
  simpa [skipWs] using List.dropWhile_append_of_pos hw

lemma skipWs_cons_of_not {c : Char} (h : ¬ isSpaceChar c) (s : List Char) :
    skipWs (c :: s) = c :: s := by
  simp [skipWs, List.dropWhile_cons, h]

lemma takeWhileWs_append_of_ws {w : List Char} (hw : ∀ c ∈ w, isSpaceChar c)
    (s : List Char) :
    List.takeWhile isSpaceChar (w ++ s) = w ++ List.takeWhile isSpaceChar s :=
  List.takeWhile_append_of_pos hw

lemma takeWhileWs_cons_of_not {c : Char} (h : ¬ isSpaceChar c)
    (s : List Char) : List.takeWhile isSpaceChar (c :: s) = [] := by
  simp [List.takeWhile_cons, h]

lemma rstripL_nil : rstripL [] = [] := by simp [rstripL]

lemma rstripL_cons_of_not {c : Char} (h : ¬ isSpaceChar c) (l : List Char) :
    rstripL (c :: l) = c :: rstripL l := by
  unfold rstripL
  rw [show (c :: l).reverse = l.reverse ++ [c] by simp,
      List.dropWhile_append]
  by_cases he : (List.dropWhile isSpaceChar l.reverse).isEmpty
  · simp only [he, if_pos]
    rw [List.isEmpty_iff] at he
    simp [List.dropWhile_cons, h, he]
  · simp only [he, if_neg, List.reverse_append]
    simp

lemma rstripL_append_of_ws {w : List Char} (hw : ∀ c ∈ w, isSpaceChar c)
    (l : List Char) : rstripL (l ++ w) = rstripL l := by
  unfold rstripL
  rw [List.reverse_append, List.dropWhile_append_of_pos]
  intro c hc
  exact hw c (List.mem_reverse.mp hc)

lemma count_dropWhile_of_not {c : Char} {p : Char → Bool}
    (h : p c ≠ true) (l : List Char) :
    List.count c (List.dropWhile p l) = List.count c l := by
  induction l with
  | nil => simp
  | cons x t ih =>
    by_cases hx : p x
    · have hxc : x ≠ c := fun he => h (he ▸ hx)
      simp [List.dropWhile_cons, hx, ih, List.count_cons, hxc]
    · simp [List.dropWhile_cons, hx]

lemma count_rstripL_of_not {c : Char} (h : isSpaceChar c ≠ true)
    (l : List Char) : List.count c (rstripL l) = List.count c l := by
  unfold rstripL
  rw [List.count_reverse, count_dropWhile_of_not h, List.count_reverse]

/-! ## Helper lemmas: literal stripping and scanning -/

lemma stripLit_append_self (l r : List Char) : stripLit l (l ++ r) = some r := by
  induction l with
  | nil => simp [stripLit]
  | cons c t ih => simp [stripLit, ih]

lemma caselessStrip_append_self (l r : List Char) :
    caselessStrip l (l ++ r) = some r := by
  induction l with
  | nil => simp [caselessStrip]
  | cons c t ih => simp [caselessStrip, caselessEq_refl, ih]

lemma scanFirst_cons_of_none {β : Type} {f : List Char → Option β}
    {c : Char} {t : List Char} (h : f (c :: t) = none) :
    scanFirst f (c :: t) = scanFirst f t := by
  simp [scanFirst, h]

/-- Skip a chunk of the scanned text all of whose characters make the
matcher fail on sight (the matcher fails on any suffix starting with such
a character). -/
lemma scanFirst_skip_chunk {β : Type} {f : List Char → Option β}
    {chunk : List Char} (hf : ∀ c ∈ chunk, ∀ t, f (c :: t) = none)
    (rest : List Char) : scanFirst f (chunk ++ rest) = scanFirst f rest := by
  induction chunk with
  | nil => simp
  | cons c ch ih =>
    rw [List.cons_append,
        scanFirst_cons_of_none (hf c (by simp) (ch ++ rest))]
    exact ih (fun c hc t => hf c (by simp [hc]) t)

/-! ## Helper lemmas: occurrence counting and `str.replace` -/

lemma countSub_cons (m : List Char) (c : Char) (t : List Char) :
    countSub m (c :: t) = (if m.isPrefixOf (c :: t) then 1 else 0) + countSub m t :=
  rfl

lemma countSub_le_append (m x y : List Char) :
    countSub m y ≤ countSub m (x ++ y) := by
  induction x with
  | nil => simp
  | cons c t ih =>
    calc countSub m y ≤ countSub m (t ++ y) := ih
    _ ≤ _ := by rw [List.cons_append, countSub_cons]; omega

lemma countSub_pos_at (m pre post : List Char) (hm : m ≠ []) :
    0 < countSub m (pre ++ m ++ post) := by
  have h1 : 0 < countSub m (m ++ post) := by
    obtain ⟨c, mt, rfl⟩ := List.exists_cons_of_ne_nil hm
    rw [List.cons_append, countSub_cons, if_pos]
    · omega
    · rw [List.isPrefixOf_iff_prefix]
      exact List.prefix_append _ _
  calc 0 < countSub m (m ++ post) := h1
  _ ≤ countSub m (pre ++ (m ++ post)) := countSub_le_append _ _ _
  _ = countSub m (pre ++ m ++ post) := by rw [List.append_assoc]

lemma replaceAll_nil (m r : List Char) : replaceAll m r [] = [] := by
  rw [replaceAll]

lemma replaceAll_cons_match {m : List Char} (r : List Char) {c : Char}
    {t : List Char} (hm : m ≠ []) (hp : m.isPrefixOf (c :: t)) :
    replaceAll m r (c :: t) = r ++ replaceAll m r (List.drop m.length (c :: t)) := by
  rw [replaceAll]
  rw [dif_pos ⟨hm, hp⟩]

lemma replaceAll_cons_nomatch {m : List Char} (r : List Char) {c : Char}
    {t : List Char} (hp : ¬ (m ≠ [] ∧ m.isPrefixOf (c :: t))) :
    replaceAll m r (c :: t) = c :: replaceAll m r t := by
  rw [replaceAll]
  rw [dif_neg hp]

lemma replaceAll_no_occ {m : List Char} (r : List Char) {s : List Char}
    (h : countSub m s = 0) : replaceAll m r s = s := by
  induction s with
  | nil => exact replaceAll_nil m r
  | cons c t ih =>
    rw [countSub_cons] at h
    split at h
    · omega
    · next hnp =>
      rw [replaceAll_cons_nomatch r (fun hc => hnp hc.2), ih (by omega)]

/-- A text with exactly one occurrence of `m` splits as
`pre ++ m ++ post`, and `str.replace` substitutes exactly there. -/
lemma replaceAll_of_single {m pre post : List Char} (r : List Char)
    (hm : m ≠ []) (h1 : countSub m (pre ++ m ++ post) = 1) :
    replaceAll m r (pre ++ m ++ post) = pre ++ r ++ post := by
  induction pre with
  | nil =>
    simp only [List.nil_append] at h1 ⊢
    have hp : m.isPrefixOf (m ++ post) := by
      rw [List.isPrefixOf_iff_prefix]; exact List.prefix_append _ _
    obtain ⟨c, mt, rfl⟩ := List.exists_cons_of_ne_nil hm
    have hpost0 : countSub (c :: mt) post = 0 := by
      have hcount : countSub (c :: mt) ((c :: mt) ++ post) =
          1 + countSub (c :: mt) (mt ++ post) := by
        rw [List.cons_append, countSub_cons,
            if_pos (by simpa [List.cons_append] using hp)]
      have hle : countSub (c :: mt) post ≤ countSub (c :: mt) (mt ++ post) :=
        countSub_le_append _ mt post
      omega
    rw [List.cons_append, replaceAll_cons_match r hm
          (by simpa [List.cons_append] using hp),
        ← List.cons_append, List.drop_left, replaceAll_no_occ r hpost0]
  | cons c pt ih =>
    have h2 : countSub m (c :: (pt ++ m ++ post)) = 1 := by
      simpa [List.cons_append] using h1
    rw [countSub_cons] at h2
    have hnp : ¬ m.isPrefixOf (c :: (pt ++ m ++ post)) := by
      intro hp
      rw [if_pos hp] at h2
      have := countSub_pos_at m pt post hm
      omega
    have htail : countSub m (pt ++ m ++ post) = 1 := by
      rw [if_neg hnp] at h2
      omega
    calc replaceAll m r ((c :: pt) ++ m ++ post)
        = replaceAll m r (c :: (pt ++ m ++ post)) := by simp
      _ = c :: replaceAll m r (pt ++ m ++ post) :=
          replaceAll_cons_nomatch r (fun hc => hnp hc.2)
      _ = c :: (pt ++ r ++ post) := by rw [ih htail]
      _ = (c :: pt) ++ r ++ post := by simp

lemma containsSub_true_of_single {m s : List Char}
    (h : countSub m s = 1) : containsSub m s = true := by
  simp [containsSub, h]

lemma containsSub_false_iff (m s : List Char) :
    containsSub m s = false ↔ countSub m s = 0 := by
  simp [containsSub]

lemma replaceAll_front {m : List Char} (r : List Char) (hm : m ≠ [])
    (s : List Char) : replaceAll m r (m ++ s) = r ++ replaceAll m r s := by
  obtain ⟨c, mt, rfl⟩ := List.exists_cons_of_ne_nil hm
  rw [List.cons_append, replaceAll_cons_match r hm
        (by rw [List.isPrefixOf_iff_prefix, ← List.cons_append]
            exact List.prefix_append _ _),
      ← List.cons_append, List.drop_left]

lemma countSub_decomp {m s : List Char} (h : countSub m s ≠ 0) (hm : m ≠ []) :
    ∃ pre post, s = pre ++ m ++ post := by
  induction s with
  | nil =>
    exfalso
    apply h
    rw [show countSub m [] = if m.isPrefixOf ([] : List Char) then 1 else 0 from rfl,
        if_neg]
    rw [List.isPrefixOf_iff_prefix]
    intro hp
    exact hm (List.prefix_nil.mp hp)
  | cons c t ih =>
    rw [countSub_cons] at h
    by_cases hp : m.isPrefixOf (c :: t)
    · rw [List.isPrefixOf_iff_prefix] at hp
      obtain ⟨post, hpost⟩ := hp
      exact ⟨[], post, by simp [hpost]⟩
    · have ht : countSub m t ≠ 0 := by
        rw [if_neg hp] at h
        omega
      obtain ⟨pre, post, rfl⟩ := ih ht
      exact ⟨c :: pre, post, by simp⟩

/-! ## Helper lemmas: splicer structure -/

lemma stripLit_split {l s r : List Char} (h : stripLit l s = some r) :
    s = l ++ r := by
  induction l generalizing s with
  | nil => simpa [stripLit] using h
  | cons p pr ih =>
    match s with
    | [] => simp [stripLit] at h
    | c :: t =>
      rw [stripLit] at h
      split at h
      · next he => rw [List.cons_append, he, ih h]
      · exact absurd h (by simp)

lemma lazyCloseProg_split {s content rest : List Char}
    (h : lazyCloseProg s = some (content, rest)) :
    s = content ++ '}' :: rest := by
  induction s generalizing content with
  | nil => simp [lazyCloseProg] at h
  | cons c t ih =>
    rw [lazyCloseProg] at h
    split at h
    · next hc =>
      simp only [Option.some.injEq, Prod.mk.injEq] at h
      obtain ⟨rfl, rfl⟩ := h
      simp [hc.1]
    · next hc =>
      match hlz : lazyCloseProg t with
      | none => rw [hlz] at h; simp at h
      | some (c2, r2) =>
        rw [hlz] at h
        simp only [Option.map_some', Option.some.injEq, Prod.mk.injEq] at h
        obtain ⟨rfl, rfl⟩ := h
        rw [List.cons_append]
        exact congrArg (c :: ·) (ih hlz)

lemma expectChar_split {c0 : Char} {s t : List Char}
    (h : expectChar c0 s = some t) :
    s = s.takeWhile isSpaceChar ++ c0 :: t := by
  unfold expectChar at h
  split at h
  · exact absurd h (by simp)
  · next x t' h2 =>
    by_cases hx : x = c0
    · rw [if_pos hx] at h
      obtain rfl : t' = t := by simpa using h
      subst hx
      conv_lhs =>
        rw [← List.takeWhile_append_dropWhile (p := isSpaceChar) (l := s)]
      rw [show List.dropWhile isSpaceChar s = x :: t' from h2]
    · rw [if_neg hx] at h
      exact absurd h (by simp)

lemma progMatchAt_split {s p g r : List Char}
    (h : progMatchAt s = some (p, g, r)) :
    s = p ++ g ++ r ∧ ∃ content, g = '{' :: (content ++ ['}']) := by
  unfold progMatchAt at h
  match h1 : stripLit progLit s with
  | none => rw [h1] at h; simp at h
  | some s1 =>
    rw [h1, Option.some_bind] at h
    match h2 : expectChar '{' s1 with
    | none => rw [h2] at h; simp at h
    | some s2 =>
      rw [h2, Option.some_bind] at h
      match h3 : expectChar '{' s2 with
      | none => rw [h3] at h; simp at h
      | some s3 =>
        rw [h3, Option.some_bind] at h
        match h4 : lazyCloseProg s3 with
        | none => rw [h4] at h; simp at h
        | some (content, rest) =>
          rw [h4] at h
          simp only [Option.map_some', Option.some.injEq, Prod.mk.injEq] at h
          obtain ⟨rfl, rfl, rfl⟩ := h
          refine ⟨?_, content, rfl⟩
          have e1 : s = progLit ++ s1 := stripLit_split h1
          have e2 : s1 = s1.takeWhile isSpaceChar ++ '{' :: s2 :=
            expectChar_split h2
          have e3 : s2 = s2.takeWhile isSpaceChar ++ '{' :: s3 :=
            expectChar_split h3
          have e4 : s3 = content ++ '}' :: rest := lazyCloseProg_split h4
          rw [e4] at e3
          rw [e3] at e2
          rw [e2] at e1
          rw [e1]
          simp

lemma progMatchAt_nil : progMatchAt [] = none := rfl

lemma progScanGo_split {s : List Char} {acc p g r : List Char}
    (h : progScanGo acc s = some (p, g, r)) :
    acc.reverse ++ s = p ++ g ++ r ∧ ∃ content, g = '{' :: (content ++ ['}']) := by
  induction s generalizing acc with
  | nil =>
    rw [progScanGo, progMatchAt_nil] at h
    exact absurd h (by simp)
  | cons c t ih =>
    rw [progScanGo] at h
    split at h
    · next u hu =>
      obtain ⟨p1, g1, r1⟩ := u
      simp only [Option.some.injEq, Prod.mk.injEq] at h
      obtain ⟨rfl, rfl, rfl⟩ := h
      obtain ⟨hsplit, hc⟩ := progMatchAt_split hu
      refine ⟨?_, hc⟩
      rw [hsplit]
      simp
    · have := ih h
      simpa using this

lemma progSearch_split {s p g r : List Char}
    (h : progSearch s = some (p, g, r)) :
    s = p ++ g ++ r ∧ ∃ content, g = '{' :: (content ++ ['}']) := by
  have := progScanGo_split (show progScanGo [] s = some (p, g, r) from h)
  simpa using this

lemma rfindChar_append_last (c : Char) (l : List Char) :
    rfindChar c (l ++ [c]) = some l.length := by
  induction l with
  | nil => simp [rfindChar]
  | cons x t ih => rw [List.cons_append, rfindChar, ih]; rfl

lemma lazyCloseProg_template {body rest : List Char} (hb : '}' ∉ body)
    (hcheck : checkEndProg rest = true) :
    lazyCloseProg (body ++ '}' :: rest) = some (body, rest) := by
  induction body with
  | nil =>
    rw [List.nil_append, lazyCloseProg, if_pos ⟨rfl, hcheck⟩]
  | cons c t ih =>
    have hc : c ≠ '}' := fun he => hb (he ▸ List.mem_cons_self c t)
    rw [List.cons_append, lazyCloseProg, if_neg (fun hand => hc hand.1),
        ih (fun hm => hb (List.mem_cons_of_mem c hm))]
    rfl

lemma expectChar_template {c0 : Char} (hc0 : ¬ isSpaceChar c0)
    {w : List Char} (hw : ∀ c ∈ w, isSpaceChar c) (s : List Char) :
    expectChar c0 (w ++ c0 :: s) = some s := by
  unfold expectChar
  rw [skipWs_append_of_ws hw, skipWs_cons_of_not hc0]
  show (if c0 = c0 then some s else none) = some s
  rw [if_pos rfl]

lemma checkEndProg_template {w2 w3 tail : List Char}
    (hw2 : ∀ c ∈ w2, isSpaceChar c) (hw3 : ∀ c ∈ w3, isSpaceChar c) :
    checkEndProg (w2 ++ '}' :: (w3 ++ endProgLit ++ tail)) = true := by
  unfold checkEndProg
  rw [expectChar_template (by decide) hw2, Option.some_bind]
  rw [show skipWs (w3 ++ endProgLit ++ tail) = endProgLit ++ tail by
      rw [List.append_assoc, skipWs_append_of_ws hw3,
          show endProgLit ++ tail = '\\' :: (endProgLit.tail ++ tail) from rfl,
          skipWs_cons_of_not (by decide)]]
  rw [stripLit_append_self]
  rfl

lemma progMatchAt_cons_ne {c : Char} (hc : c ≠ '\\') (t : List Char) :
    progMatchAt (c :: t) = none := by
  unfold progMatchAt
  rw [show stripLit progLit (c :: t) = none by
      rw [show progLit = '\\' :: progLit.tail from rfl, stripLit,
          if_neg (fun he => hc he.symm)]]
  rfl

lemma progScanGo_skip {chunk : List Char}
    (hA : ∀ c ∈ chunk, c ≠ '\\') (acc rest : List Char) :
    progScanGo acc (chunk ++ rest) = progScanGo (chunk.reverse ++ acc) rest := by
  induction chunk generalizing acc with
  | nil => simp
  | cons c t ih =>
    rw [List.cons_append, progScanGo,
        progMatchAt_cons_ne (hA c (by simp)) (t ++ rest)]
    rw [ih (fun x hx => hA x (by simp [hx])) (c :: acc)]
    simp

/-- `prog_re.search` on the structural-block template. -/
lemma progSearch_template {A w0 w1 body w2 w3 tail : List Char}
    (hA : ∀ c ∈ A, c ≠ '\\') (hw0 : ∀ c ∈ w0, isSpaceChar c)
    (hw1 : ∀ c ∈ w1, isSpaceChar c) (hw2 : ∀ c ∈ w2, isSpaceChar c)
    (hw3 : ∀ c ∈ w3, isSpaceChar c) (hb : '}' ∉ body) :
    progSearch (A ++ progLit ++ w0 ++ '{' :: (w1 ++ '{' ::
        (body ++ '}' :: (w2 ++ '}' :: (w3 ++ endProgLit ++ tail))))) =
      some (A ++ progLit ++ w0 ++ '{' :: w1, '{' :: (body ++ ['}']),
            w2 ++ '}' :: (w3 ++ endProgLit ++ tail)) := by
  unfold progSearch
  rw [show A ++ progLit ++ w0 ++ '{' :: (w1 ++ '{' ::
        (body ++ '}' :: (w2 ++ '}' :: (w3 ++ endProgLit ++ tail)))) =
      A ++ (progLit ++ (w0 ++ '{' :: (w1 ++ '{' ::
        (body ++ '}' :: (w2 ++ '}' :: (w3 ++ endProgLit ++ tail)))))) by simp,
      progScanGo_skip hA]
  have hmatch : progMatchAt (progLit ++ (w0 ++ '{' :: (w1 ++ '{' ::
      (body ++ '}' :: (w2 ++ '}' :: (w3 ++ endProgLit ++ tail)))))) =
      some (progLit ++ w0 ++ '{' :: w1, '{' :: (body ++ ['}']),
            w2 ++ '}' :: (w3 ++ endProgLit ++ tail)) := by
    unfold progMatchAt
    rw [stripLit_append_self, Option.some_bind,
        expectChar_template (by decide) hw0, Option.some_bind,
        expectChar_template (by decide) hw1, Option.some_bind,
        lazyCloseProg_template hb (checkEndProg_template hw2 hw3)]
    rw [takeWhileWs_append_of_ws hw0, takeWhileWs_cons_of_not (by decide),
        takeWhileWs_append_of_ws hw1, takeWhileWs_cons_of_not (by decide)]
    simp
  match hpl : progLit ++ (w0 ++ '{' :: (w1 ++ '{' ::
      (body ++ '}' :: (w2 ++ '}' :: (w3 ++ endProgLit ++ tail))))) with
  | [] => exact absurd hpl (by simp [progLit])
  | c :: t =>
    rw [progScanGo, ← hpl, hmatch]
    simp

lemma replaceAll_self {m : List Char} (r : List Char) (hm : m ≠ []) :
    replaceAll m r m = r := by
  have := replaceAll_front r hm []
  simpa [replaceAll_nil] using this

lemma dropWhile_idem (p : Char → Bool) (l : List Char) :
    List.dropWhile p (List.dropWhile p l) = List.dropWhile p l := by
  induction l with
  | nil => simp
  | cons c t ih =>
    by_cases hc : p c
    · simp [List.dropWhile_cons, hc, ih]
    · simp [List.dropWhile_cons, hc]

lemma rstripL_idem (l : List Char) : rstripL (rstripL l) = rstripL l := by
  unfold rstripL
  rw [List.reverse_reverse, dropWhile_idem]

lemma rstripL_stripBoth (l : List Char) :
    rstripL (stripBoth l) = stripBoth l := by
  unfold stripBoth
  rw [rstripL_idem]

/-! ## Claim C7: pre-normalization of the LLM code -/

/-- Claim C7, counterexample.  The claim says the outer brace pair is
stripped exactly when the code is wrapped in a single outer brace pair.
The code `{a}{b}` is not wrapped in a single pair (the leading `{` closes
before the end), so under the claim it would stay intact and gain a `;`,
giving `{a}{b};`.  The source strips the first and last character whenever
the trimmed code merely starts with `{` and ends with `}`, producing the
mangled `a}{b;`. -/
theorem c7_counterexample :
    normalizeCode ('{' :: 'a' :: '}' :: '{' :: 'b' :: '}' :: []) =
      ('a' :: '}' :: '{' :: 'b' :: ';' :: []) ∧
    normalizeCode ('{' :: 'a' :: '}' :: '{' :: 'b' :: '}' :: []) ≠
      ('{' :: 'a' :: '}' :: '{' :: 'b' :: '}' :: ';' :: []) := by
  constructor
  · decide
  · decide

/-- Claim C7 (amended): after trimming surrounding whitespace, the first
and last characters are dropped (and the remainder re-trimmed) exactly
when the trimmed code starts with `{` AND ends with `}` — whether or not
they form a matching pair; then a `;` is appended exactly when the result
is non-empty and does not already end in `;`. -/
theorem c7_normalization (s m : List Char) :
    (stripBoth s = '{' :: (m ++ ['}']) →
      normalizeCode s =
        (if stripBoth m ≠ [] ∧ (stripBoth m).getLast? ≠ some ';'
         then stripBoth m ++ [';'] else stripBoth m)) ∧
    ((stripBoth s).head? ≠ some '{' ∨ (stripBoth s).getLast? ≠ some '}' →
      normalizeCode s =
        (if stripBoth s ≠ [] ∧ (stripBoth s).getLast? ≠ some ';'
         then stripBoth s ++ [';'] else stripBoth s)) := by
  constructor
  · intro h
    simp only [normalizeCode]
    rw [h]
    have hhead : ('{' :: (m ++ ['}'])).head? = some '{' := rfl
    have hlast : ('{' :: (m ++ ['}'])).getLast? = some '}' := by
      rw [show '{' :: (m ++ ['}']) = ('{' :: m) ++ ['}'] by simp,
          List.getLast?_concat]
    have e1 : (('{' :: (m ++ ['}'])).drop 1).dropLast = m := by simp
    have hif : (if ('{' :: (m ++ ['}'])).head? = some '{' ∧
          ('{' :: (m ++ ['}'])).getLast? = some '}'
        then stripBoth (('{' :: (m ++ ['}'])).drop 1).dropLast
        else '{' :: (m ++ ['}'])) =
        stripBoth (('{' :: (m ++ ['}'])).drop 1).dropLast :=
      if_pos ⟨hhead, hlast⟩
    rw [hif, e1, rstripL_stripBoth]
  · intro h
    simp only [normalizeCode]
    have hneg : ¬ ((stripBoth s).head? = some '{' ∧
        (stripBoth s).getLast? = some '}') := by
      intro hand
      rcases h with h | h
      · exact h hand.1
      · exact h hand.2
    have hif : (if (stripBoth s).head? = some '{' ∧
          (stripBoth s).getLast? = some '}'
        then stripBoth ((stripBoth s).drop 1).dropLast
        else stripBoth s) = stripBoth s := if_neg hneg
    rw [hif, rstripL_stripBoth]

/-- Claim C7, witness at `s = " {a;} "`, `m = "a;"`. -/
theorem c7_witness :
    normalizeCode " \x7ba;\x7d ".toList =
      (if stripBoth "a;".toList ≠ [] ∧
          (stripBoth "a;".toList).getLast? ≠ some ';'
       then stripBoth "a;".toList ++ [';'] else stripBoth "a;".toList) :=
  (c7_normalization " \x7ba;\x7d ".toList "a;".toList).1 (by decide)

/-! ## Claim C5: splicing at the marker token -/

/-- Claim C5, counterexample.  The claim says the code is spliced in at
exactly one location whenever the marker is present.  `str.replace`
replaces every occurrence: with the marker twice in the text the
normalized code (`z;`) appears at two locations. -/
theorem c5_counterexample :
    _splice_llm_code (markerStr ++ markerStr) ['z'] =
      .ok ('z' :: ';' :: 'z' :: ';' :: []) ∧
    countSub (normalizeCode ['z']) ('z' :: ';' :: 'z' :: ';' :: []) = 2 := by
  constructor
  · unfold _splice_llm_code
    rw [show normalizeCode ['z'] = ['z', ';'] from by decide,
        if_pos (by decide)]
    rw [replaceAll_front _ (by decide), replaceAll_self _ (by decide)]
    rfl
  · decide

/-- Claim C5 (amended): when the marker occurs exactly once, say
`originalText = pre ++ marker ++ post`, splicing replaces exactly that
occurrence by the normalized code and changes nothing else; when the
marker occurs several times, every occurrence is replaced. -/
theorem c5_marker_splice (pre post code : List Char)
    (hone : countSub markerStr (pre ++ markerStr ++ post) = 1) :
    _splice_llm_code (pre ++ markerStr ++ post) code =
      .ok (pre ++ normalizeCode code ++ post) := by
  unfold _splice_llm_code
  rw [if_pos (containsSub_true_of_single hone),
      replaceAll_of_single _ (by decide) hone]

/-- Claim C5, witness: one marker occurrence inside `A //@SYNTHESIS_HOLE B`. -/
theorem c5_witness :
    _splice_llm_code "A //@SYNTHESIS_HOLE B".toList ['w'] =
      .ok ("A ".toList ++ normalizeCode ['w'] ++ " B".toList) :=
  c5_marker_splice "A ".toList " B".toList ['w'] (by decide)

/-! ## Claim C1: brace-count invariant of splicing -/

/-- Claim C1, counterexample.  The claim counts the braces contributed by
`code` as the braces of the raw `code` argument; but normalization strips
a leading-`{`/trailing-`}` pair, so for `code = "{x}"` spliced at a marker
the patched text has no brace at all while the claim demands one of each. -/
theorem c1_counterexample :
    _splice_llm_code markerStr ('{' :: 'x' :: '}' :: []) =
      .ok ('x' :: ';' :: []) ∧
    List.count '{' ('x' :: ';' :: []) ≠
      List.count '{' markerStr +
        List.count '{' ('{' :: 'x' :: '}' :: []) := by
  constructor
  · unfold _splice_llm_code
    rw [show normalizeCode ('{' :: 'x' :: '}' :: []) = ['x', ';'] from by decide,
        if_pos (by decide), replaceAll_self _ (by decide)]
  · decide

/-- Claim C1 (amended): when splicing succeeds and the marker occurs at
most once in `originalText`, the number of `{` and of `}` in the patched
text equals the corresponding count of `originalText` plus the count of
the NORMALIZED code (after outer-brace stripping and terminator
appending). -/
theorem c1_brace_invariant (src code out : List Char)
    (hout : _splice_llm_code src code = .ok out)
    (hm : countSub markerStr src ≤ 1) :
    List.count '{' out =
      List.count '{' src + List.count '{' (normalizeCode code) ∧
    List.count '}' out =
      List.count '}' src + List.count '}' (normalizeCode code) := by
  unfold _splice_llm_code at hout
  by_cases hc : containsSub markerStr src = true
  · rw [if_pos hc] at hout
    have h0 : countSub markerStr src ≠ 0 := by
      simpa [containsSub] using hc
    have h1 : countSub markerStr src = 1 := by omega
    obtain ⟨pre, post, rfl⟩ := countSub_decomp h0 (by decide)
    rw [replaceAll_of_single _ (by decide) h1] at hout
    obtain rfl : pre ++ normalizeCode code ++ post = out := by
      simpa using hout
    constructor <;>
      simp [List.count_append,
            show List.count '{' markerStr = 0 from by decide,
            show List.count '}' markerStr = 0 from by decide] <;>
      omega
  · rw [if_neg hc] at hout
    match hps : progSearch src with
    | none => rw [hps] at hout; exact absurd hout (by simp)
    | some (p, g, r) =>
      rw [hps] at hout
      obtain ⟨hsplit, content, rfl⟩ := progSearch_split hps
      simp only [] at hout
      rw [show '{' :: (content ++ ['}']) = ('{' :: content) ++ ['}'] by simp,
          rfindChar_append_last] at hout
      simp only [] at hout
      rw [List.take_left, List.drop_left] at hout
      obtain rfl :
          p ++ (rstripL ('{' :: content) ++
            '\n' :: (normalizeCode code ++ '\n' :: ['}'])) ++ r = out := by
        simpa using hout
      subst hsplit
      constructor <;>
        simp [List.count_append, List.count_cons,
              count_rstripL_of_not (c := '{') (by decide),
              count_rstripL_of_not (c := '}') (by decide)] <;>
        omega

/-- Claim C1, witness on the structural-block path (marker absent). -/
theorem c1_witness :
    List.count '{'
        "\\program \x7b \x7bx;\nq;\n\x7d \x7d \\endprogram".toList =
      List.count '{' "\\program \x7b \x7bx;\x7d \x7d \\endprogram".toList +
        List.count '{' (normalizeCode ['q']) ∧
    List.count '}'
        "\\program \x7b \x7bx;\nq;\n\x7d \x7d \\endprogram".toList =
      List.count '}' "\\program \x7b \x7bx;\x7d \x7d \\endprogram".toList +
        List.count '}' (normalizeCode ['q']) :=
  c1_brace_invariant "\\program \x7b \x7bx;\x7d \x7d \\endprogram".toList
    ['q'] "\\program \x7b \x7bx;\nq;\n\x7d \x7d \\endprogram".toList
    (by decide) (by decide)

/-! ## Claim C6: structural-block splicing -/

/-- Claim C6, counterexample.  The claim says everything else in the body
is preserved byte-for-byte; but the code `rstrip`s the body content before
the final `}`, so the trailing run `x;   ` of the body does not survive in
the patched text. -/
theorem c6_counterexample :
    _splice_llm_code "\\program \x7b \x7b x;   \x7d \x7d \\endprogram".toList
        "y".toList =
      .ok "\\program \x7b \x7b x;\ny;\n\x7d \x7d \\endprogram".toList ∧
    containsSub "x;   ".toList
        "\\program \x7b \x7b x;   \x7d \x7d \\endprogram".toList = true ∧
    containsSub "x;   ".toList
        "\\program \x7b \x7b x;\ny;\n\x7d \x7d \\endprogram".toList = false := by
  refine ⟨?_, by decide, by decide⟩
  decide

/-- Claim C6 (amended): with the marker absent, splice finds the
`\program { { body } } \endprogram` block, trims the trailing whitespace
of the body's content, and inserts a newline, the normalized code, and a
newline immediately before the body's final closing brace; everything
before the body's trailing whitespace, and everything outside the body,
is preserved.  If no block matches, splice fails with the
location-not-found error. -/
theorem c6_structural_splice (A w0 w1 body w2 w3 tail code : List Char)
    (hA : ∀ c ∈ A, c ≠ '\\') (hw0 : ∀ c ∈ w0, isSpaceChar c)
    (hw1 : ∀ c ∈ w1, isSpaceChar c) (hw2 : ∀ c ∈ w2, isSpaceChar c)
    (hw3 : ∀ c ∈ w3, isSpaceChar c) (hb : '}' ∉ body)
    (hm : containsSub markerStr (A ++ progLit ++ w0 ++ '{' :: (w1 ++ '{' ::
        (body ++ '}' :: (w2 ++ '}' :: (w3 ++ endProgLit ++ tail))))) = false) :
    _splice_llm_code (A ++ progLit ++ w0 ++ '{' :: (w1 ++ '{' ::
        (body ++ '}' :: (w2 ++ '}' :: (w3 ++ endProgLit ++ tail))))) code =
      .ok ((A ++ progLit ++ w0 ++ '{' :: w1) ++
           (rstripL ('{' :: body) ++ '\n' ::
             (normalizeCode code ++ '\n' :: ['}'])) ++
           (w2 ++ '}' :: (w3 ++ endProgLit ++ tail))) ∧
    (∀ src, containsSub markerStr src = false → progSearch src = none →
      _splice_llm_code src code = .error .locationNotFound) := by
  constructor
  · unfold _splice_llm_code
    rw [if_neg (by rw [hm]; exact Bool.false_ne_true)]
    rw [progSearch_template hA hw0 hw1 hw2 hw3 hb]
    simp only []
    rw [show '{' :: (body ++ ['}']) = ('{' :: body) ++ ['}'] by simp,
        rfindChar_append_last]
    simp only []
    rw [List.take_left, List.drop_left]
  · intro src h1 h2
    unfold _splice_llm_code
    rw [if_neg (by rw [h1]; exact Bool.false_ne_true), h2]

/-- Claim C6, witness: `A \program { { x; } } \endprogram T` with code `y`. -/
theorem c6_witness :
    _splice_llm_code ("A ".toList ++ progLit ++ [' '] ++ '{' :: ([' '] ++ '{' ::
        (" x; ".toList ++ '}' :: ([' '] ++ '}' ::
          ([' '] ++ endProgLit ++ " T".toList))))) ['y'] =
      .ok (("A ".toList ++ progLit ++ [' '] ++ '{' :: [' ']) ++
           (rstripL ('{' :: " x; ".toList) ++ '\n' ::
             (normalizeCode ['y'] ++ '\n' :: ['}'])) ++
           ([' '] ++ '}' :: ([' '] ++ endProgLit ++ " T".toList))) :=
  (c6_structural_splice "A ".toList [' '] [' '] " x; ".toList [' '] [' ']
      " T".toList ['y'] (by decide) (by decide) (by decide) (by decide)
      (by decide) (by decide) (by decide)).1

/-- Splicing succeeds exactly when an insertion point exists: the marker is
present, or the program-block regex matches (whose group always ends in
`}`, so the `rfind` step cannot fail). -/
lemma splice_isOk {src : List Char}
    (h : containsSub markerStr src = true ∨ progSearch src ≠ none)
    (code : List Char) : ∃ out, _splice_llm_code src code = .ok out := by
  unfold _splice_llm_code
  by_cases hc : containsSub markerStr src = true
  · rw [if_pos hc]
    exact ⟨_, rfl⟩
  · rw [if_neg hc]
    have hps : progSearch src ≠ none := by
      rcases h with h | h
      · exact absurd h hc
      · exact h
    match hps2 : progSearch src with
    | none => exact absurd hps2 hps
    | some (p, g, r) =>
      obtain ⟨_, content, rfl⟩ := progSearch_split hps2
      simp only []
      rw [show '{' :: (content ++ ['}']) = ('{' :: content) ++ ['}'] by simp,
          rfindChar_append_last]
      simp only []
      exact ⟨_, rfl⟩

/-- `pyTruthy` of any value that `_coerce_to_bool` accepts as true. -/
lemma pyTruthy_of_coerce {v : PyVal} (h : _coerce_to_bool v = true) :
    pyTruthy v = true := by
  match v with
  | .bool b => simpa [_coerce_to_bool, pyTruthy] using h
  | .none => simp [_coerce_to_bool] at h
  | .str s =>
    simp only [pyTruthy, ne_eq, decide_not]
    rcases hs : s with _ | ⟨c, t⟩
    · subst hs
      simp [_coerce_to_bool, stripBoth, skipWs, rstripL] at h
    · simp

/-! ## Claim C4: synthesis call policy -/

/-- Claim C4 (confirmed): the primary model is called first; every call
carries the same request; the fallback is invoked at most once, exactly
when the primary call fails (for any reason), and its result — success or
failure — is returned/propagated with no further retries; and when
synthesis fails the pipeline has written nothing but the sanitized working
copy — in particular no code snippet file. -/
theorem c4_synthesis_policy {α : Type} (req : α) (p f : LLMOutcome) :
    (synthesize_java_update req p f).2.head? =
      some (ModelChoice.primaryModel, req) ∧
    (∀ pr ∈ (synthesize_java_update req p f).2, pr.2 = req) ∧
    ((synthesize_java_update req p f).2.filter
        (fun pr => pr.1 = ModelChoice.fallbackModel)).length ≤ 1 ∧
    (∀ java, callModel p = .ok java →
      synthesize_java_update req p f = (.ok java, [(.primaryModel, req)])) ∧
    (∀ e, callModel p = .error e →
      synthesize_java_update req p f =
        (callModel f, [(.primaryModel, req), (.fallbackModel, req)])) ∧
    (∀ env : PipelineEnv, ∀ ep ef, callModel env.primary = .error ep →
      callModel env.fallback = .error ef →
      ∀ c, WriteEvent.javaCodeTxt c ∉ (execute_llm_pipeline env).writes) := by
  have hmain : ∀ (hval : Except SynthError (List Char)),
      callModel p = hval →
      synthesize_java_update req p f =
        (match hval with
         | .ok java => (.ok java, [(.primaryModel, req)])
         | .error _ =>
            (callModel f, [(.primaryModel, req), (.fallbackModel, req)])) := by
    intro hval hv
    unfold synthesize_java_update
    rw [hv]
  refine ⟨?_, ?_, ?_, ?_, ?_, ?_⟩
  · match hp : callModel p with
    | .ok java => rw [hmain _ hp]; rfl
    | .error e => rw [hmain _ hp]; rfl
  · match hp : callModel p with
    | .ok java => rw [hmain _ hp]; simp
    | .error e => rw [hmain _ hp]; simp
  · match hp : callModel p with
    | .ok java => rw [hmain _ hp]; simp
    | .error e => rw [hmain _ hp]; simp
  · intro java hj
    rw [hmain _ hj]
  · intro e he
    rw [hmain _ he]
  · intro env ep ef hp hf c hmem
    have hsv : ∀ (r : Bool),
        (synthesize_java_update r env.primary env.fallback).1 = .error ef := by
      intro r
      unfold synthesize_java_update
      rw [hp]
      simpa using hf
    simp only [execute_llm_pipeline] at hmem
    rcases hext : extract_pre_post_from_key (_sanitize_key_file env.keyText)
      with e | pq
    · rw [hext] at hmem
      simp at hmem
    · rw [hext] at hmem
      simp only [] at hmem
      by_cases hcbc : env.cbcmodelFound
      swap
      · rw [if_pos (by simpa using hcbc)] at hmem
        simp at hmem
      · rw [if_neg (by simpa using hcbc)] at hmem
        by_cases hvars : env.varsOk
        swap
        · rw [if_pos (by simpa using hvars)] at hmem
          simp at hmem
        · rw [if_neg (by simpa using hvars)] at hmem
          rw [hsv] at hmem
          simp at hmem

/-- Claim C4, witness: a transport fault on the primary model makes the
fallback run once with the identical request and return its reply. -/
theorem c4_witness :
    synthesize_java_update (0 : Nat) LLMOutcome.transportFault
        (LLMOutcome.reply ['x']) =
      (callModel (LLMOutcome.reply ['x']),
       [(ModelChoice.primaryModel, 0), (ModelChoice.fallbackModel, 0)]) :=
  (c4_synthesis_policy (0 : Nat) LLMOutcome.transportFault
      (LLMOutcome.reply ['x'])).2.2.2.2.1 SynthError.transport (by decide)

/-! ## Claim C9: verifier result handling -/

/-- Claim C9, counterexample.  The claim says any exception raised by the
verifier invocation yields outcome `false`, never a crash.  `run_key` only
catches `CalledProcessError` (the non-zero-exit signal of `check=True`);
an invocation failure (missing `java`, spawn error) propagates, so the
pipeline raises instead of returning `false`. -/
theorem c9_counterexample :
    (execute_llm_pipeline
      { keyText := "\\pre\x7ba\x7d \\post\x7bb\x7d //@SYNTHESIS_HOLE".toList,
        suppliedFlag := Option.none, cbcmodelFound := true, varsOk := true,
        primary := .reply ['x'], fallback := .reply ['x'],
        keyJarFound := true,
        verifier := .invocationError }).outcome =
      .error .verifierInvocation ∧
    (execute_llm_pipeline
      { keyText := "\\pre\x7ba\x7d \\post\x7bb\x7d //@SYNTHESIS_HOLE".toList,
        suppliedFlag := Option.none, cbcmodelFound := true, varsOk := true,
        primary := .reply ['x'], fallback := .reply ['x'],
        keyJarFound := true,
        verifier := .invocationError }).outcome ≠ .ok false := by
  constructor
  · decide
  · decide

/-- Claim C9 (amended): when the pipeline reaches verification, its
outcome is `true` iff the external verifier ran to completion with exit
status 0; a completed run with any exit status `rc` yields the reported
outcome `rc = 0` (so non-zero exit is a reported failure, not a crash);
but an exception from the verifier invocation propagates out of the
pipeline as an error instead of being converted to `false`. -/
theorem c9_verifier_outcome (env : PipelineEnv)
    (hex : extract_pre_post_from_key (_sanitize_key_file env.keyText) ≠
      .error ())
    (hcbc : env.cbcmodelFound = true) (hvars : env.varsOk = true)
    (hsy : (∃ j, callModel env.primary = .ok j) ∨
           (∃ j, callModel env.fallback = .ok j))
    (hsp : containsSub markerStr (_sanitize_key_file env.keyText) = true ∨
           progSearch (_sanitize_key_file env.keyText) ≠ none)
    (hjar : env.keyJarFound = true) :
    ((execute_llm_pipeline env).outcome = .ok true ↔
      env.verifier = .completed 0) ∧
    (∀ rc : Int, env.verifier = .completed rc →
      (execute_llm_pipeline env).outcome = .ok (decide (rc = 0))) ∧
    (env.verifier = .invocationError →
      (execute_llm_pipeline env).outcome = .error .verifierInvocation) := by
  have key : (execute_llm_pipeline env).outcome =
      (match env.verifier with
       | .completed rc => .ok (decide (rc = 0))
       | .invocationError => .error .verifierInvocation) := by
    simp only [execute_llm_pipeline]
    rcases hext : extract_pre_post_from_key (_sanitize_key_file env.keyText)
      with e | pq
    · exact absurd hext hex
    · simp only []
      rw [if_neg (by simp [hcbc]), if_neg (by simp [hvars])]
      have hok : ∃ java, ∀ (r : Bool),
          (synthesize_java_update r env.primary env.fallback).1 =
            .ok java := by
        rcases hp : callModel env.primary with e | java
        · rcases hf : callModel env.fallback with e2 | java
          · rcases hsy with ⟨j, hsy⟩ | ⟨j, hsy⟩
            · rw [hp] at hsy; exact absurd hsy (by simp)
            · rw [hf] at hsy; exact absurd hsy (by simp)
          · exact ⟨java, fun r => by
              unfold synthesize_java_update; rw [hp]; simpa using hf⟩
        · exact ⟨java, fun r => by
            unfold synthesize_java_update; rw [hp]⟩
      obtain ⟨java, hj⟩ := hok
      rw [hj]
      simp only []
      obtain ⟨out, hout⟩ := splice_isOk hsp java
      rw [hout]
      simp only []
      rw [if_neg (by simp [hjar])]
      rcases hv : env.verifier with rc | _
      · rw [show run_key (ProcOutcome.completed rc) = .ok rc from rfl]
      · rw [show run_key ProcOutcome.invocationError =
            .error .verifierInvocation from rfl]
  refine ⟨?_, ?_, ?_⟩
  · rw [key]
    rcases hv : env.verifier with rc | _
    · simp only []
      constructor
      · intro h
        have : decide (rc = 0) = true := by simpa using h
        simpa using this
      · intro h
        obtain rfl : rc = 0 := by
          simpa using h
        simp
    · simp only []
      constructor
      · intro h; exact absurd h (by simp)
      · intro h; exact absurd h (by simp)
  · intro rc hv
    rw [key, hv]
  · intro hv
    rw [key, hv]

/-- Claim C9, witness: a verifier exiting 0 on an otherwise-successful
run makes the pipeline outcome `true`. -/
theorem c9_witness :
    ((execute_llm_pipeline
      { keyText := "\\pre\x7ba\x7d \\post\x7bb\x7d //@SYNTHESIS_HOLE".toList,
        suppliedFlag := Option.none, cbcmodelFound := true, varsOk := true,
        primary := .reply ['x'], fallback := .reply ['x'],
        keyJarFound := true, verifier := .completed 0 }).outcome = .ok true ↔
      ProcOutcome.completed (0 : Int) = .completed 0) :=
  (c9_verifier_outcome _ (by decide) (by decide) (by decide)
    (Or.inl ⟨['x'], by decide⟩) (Or.inl (by decide)) (by decide)).1

/-! ## Claim C10: loop-update flag resolution -/

/-- Claim C10 (confirmed): when the caller-supplied flag does not coerce
to true (false, absent, or an unrecognized string), the pipeline reads the
`//isLoopUpdate:{true|false};` comment from the first 50 lines of the
sanitized working copy and, when present, that value is the
`is_loop_update` flag in the synthesis payload; a caller-supplied flag
that coerces to true is never overridden by the file comment. -/
theorem c10_loop_flag (env : PipelineEnv)
    (hex : extract_pre_post_from_key (_sanitize_key_file env.keyText) ≠
      .error ())
    (hcbc : env.cbcmodelFound = true) (hvars : env.varsOk = true) :
    (_coerce_to_bool (env.suppliedFlag.getD (.bool false)) = false →
      ∀ b, _parse_is_loop_update_from_key (_sanitize_key_file env.keyText) =
        some b →
      (execute_llm_pipeline env).synthFlag = some b) ∧
    (_coerce_to_bool (env.suppliedFlag.getD (.bool false)) = true →
      (execute_llm_pipeline env).synthFlag = some true) := by
  have key : (execute_llm_pipeline env).synthFlag =
      some (pyTruthy
        (if _coerce_to_bool (env.suppliedFlag.getD (PyVal.bool false)) = true
         then env.suppliedFlag.getD (PyVal.bool false)
         else
           match _parse_is_loop_update_from_key (_sanitize_key_file env.keyText)
             with
           | some b => PyVal.bool b
           | none => env.suppliedFlag.getD (PyVal.bool false))) := by
    simp only [execute_llm_pipeline]
    rcases hext : extract_pre_post_from_key (_sanitize_key_file env.keyText)
      with e | pq
    · exact absurd hext hex
    · simp only []
      rw [if_neg (by simp [hcbc]), if_neg (by simp [hvars])]
      rcases hs : (synthesize_java_update
          (pyTruthy
            (if _coerce_to_bool (env.suppliedFlag.getD (PyVal.bool false)) =
                true
             then env.suppliedFlag.getD (PyVal.bool false)
             else
               match _parse_is_loop_update_from_key
                   (_sanitize_key_file env.keyText) with
               | some b => PyVal.bool b
               | none => env.suppliedFlag.getD (PyVal.bool false)))
          env.primary env.fallback).1 with e | code
      · rfl
      · simp only []
        rcases hsp : _splice_llm_code (_sanitize_key_file env.keyText) code
          with e | patched
        · rfl
        · simp only []
          by_cases hjar : env.keyJarFound = true
          · rw [if_neg (by simp [hjar])]
            rcases hv : env.verifier with rc | _
            · rfl
            · rfl
          · rw [if_pos (by simpa using hjar)]
  constructor
  · intro hfalse b hparse
    rw [key, if_neg (by simp [hfalse]), hparse]
    rfl
  · intro htrue
    rw [key, if_pos htrue]
    rw [pyTruthy_of_coerce htrue]

/-- Claim C10, witness: caller passes the string "no" (coerces to false);
the sanitized key's comment `//isLoopUpdate:{true};` decides the payload
flag. -/
theorem c10_witness :
    (execute_llm_pipeline
      { keyText :=
          "//isLoopUpdate:\x7btrue\x7d;\n\\pre\x7ba\x7d \\post\x7bb\x7d".toList,
        suppliedFlag := some (.str "no".toList),
        cbcmodelFound := true, varsOk := true,
        primary := .reply ['x'], fallback := .reply ['x'],
        keyJarFound := true, verifier := .completed 0 }).synthFlag =
      some true :=
  (c10_loop_flag _ (by decide) (by decide) (by decide)).1 (by decide) true
    (by decide)

/-! ## Claim C8: sanitizer idempotence -/

lemma removeDir_subset {tag : List Char} {ls : List (List Char)}
    {L : List Char} (h : L ∈ removeDir tag ls) : L ∈ ls := by
  induction ls with
  | nil => simpa [removeDir] using h
  | cons K rest ih =>
    rw [removeDir] at h
    split at h
    · exact List.mem_cons_of_mem K (ih h)
    · split at h
      · exact List.mem_cons_of_mem K (ih h)
      · rcases List.mem_cons.mp h with h | h
        · exact h ▸ List.mem_cons_self K rest
        · exact List.mem_cons_of_mem K (ih h)

lemma removeDir_not_dir {tag : List Char} {ls : List (List Char)}
    {L : List Char} (h : L ∈ removeDir tag ls) : isDirLine tag L = false := by
  induction ls with
  | nil => simp [removeDir] at h
  | cons K rest ih =>
    rw [removeDir] at h
    split at h
    · exact ih h
    · split at h
      · exact ih h
      · next hdir _ =>
        rcases List.mem_cons.mp h with h | h
        · subst h
          simpa using hdir
        · exact ih h

lemma blanksThenDir_false {tag : List Char} {ls : List (List Char)}
    (h : ∀ L ∈ ls, isDirLine tag L = false) :
    blanksThenDir tag ls = false := by
  induction ls with
  | nil => rfl
  | cons K rest ih =>
    rw [blanksThenDir]
    rw [h K (List.mem_cons_self K rest),
        ih (fun L hL => h L (List.mem_cons_of_mem K hL))]
    simp

lemma removeDir_id {tag : List Char} {ls : List (List Char)}
    (h : ∀ L ∈ ls, isDirLine tag L = false) : removeDir tag ls = ls := by
  induction ls with
  | nil => rfl
  | cons K rest ih =>
    rw [removeDir,
        if_neg (by rw [h K (List.mem_cons_self K rest)]
                   exact Bool.false_ne_true)]
    rw [if_neg (fun hand => by
      have hbtd := blanksThenDir_false
        (show ∀ L ∈ rest, isDirLine tag L = false from
          fun L hL => h L (List.mem_cons_of_mem K hL))
      rw [hbtd] at hand
      exact Bool.false_ne_true hand.2)]
    rw [ih (fun L hL => h L (List.mem_cons_of_mem K hL))]

lemma sanitizeLines_mem {ls : List (List Char)} {L : List Char}
    (h : L ∈ sanitizeLines ls) : L ∈ ls :=
  removeDir_subset (removeDir_subset (removeDir_subset h))

lemma sanitizeLines_idem (ls : List (List Char)) :
    sanitizeLines (sanitizeLines ls) = sanitizeLines ls := by
  unfold sanitizeLines
  have h1 : ∀ L ∈ removeDir bootclasspathTag (removeDir classpathTag
      (removeDir javaSourceTag ls)), isDirLine javaSourceTag L = false :=
    fun L hL => removeDir_not_dir (removeDir_subset (removeDir_subset hL))
  rw [removeDir_id h1]
  have h2 : ∀ L ∈ removeDir bootclasspathTag (removeDir classpathTag
      (removeDir javaSourceTag ls)), isDirLine classpathTag L = false :=
    fun L hL => removeDir_not_dir (removeDir_subset hL)
  rw [removeDir_id h2]
  have h3 : ∀ L ∈ removeDir bootclasspathTag (removeDir classpathTag
      (removeDir javaSourceTag ls)), isDirLine bootclasspathTag L = false :=
    fun L hL => removeDir_not_dir hL
  rw [removeDir_id h3]

lemma wfLines_cons {L : List Char} {rest : List (List Char)}
    (h : wfLines (L :: rest)) : lastShape L ∧ wfLines rest := by
  match rest with
  | [] => exact ⟨h, trivial⟩
  | K :: rest2 => exact ⟨Or.inl h.1, h.2⟩

lemma wfLines_cons_of {L : List Char} {rest : List (List Char)}
    (hL : lineShape L) (h : wfLines rest) : wfLines (L :: rest) := by
  match rest with
  | [] => exact Or.inl hL
  | K :: rest2 => exact ⟨hL, h⟩

lemma wf_removeDir (tag : List Char) {ls : List (List Char)}
    (h : wfLines ls) : wfLines (removeDir tag ls) := by
  induction ls with
  | nil => simpa [removeDir] using h
  | cons L rest ih =>
    match rest, h with
    | [], h =>
      rw [removeDir]
      split
      · trivial
      · split
        · trivial
        · exact h
    | K :: rest2, h =>
      have ih2 := ih h.2
      rw [removeDir]
      split
      · exact ih2
      · split
        · exact ih2
        · exact wfLines_cons_of h.1 ih2

lemma splitLinesGo_line {c : List Char} (hc : '\n' ∉ c)
    (acc s : List Char) :
    splitLinesGo acc (c ++ '\n' :: s) =
      (acc.reverse ++ c ++ ['\n']) :: splitLinesGo [] s := by
  induction c generalizing acc with
  | nil => simp [splitLinesGo]
  | cons x t ih =>
    have hx : x ≠ '\n' := fun he => hc (he ▸ List.mem_cons_self x t)
    rw [List.cons_append, splitLinesGo, if_neg hx,
        ih (fun hm => hc (List.mem_cons_of_mem x hm))]
    simp

lemma splitLinesGo_noNL {L : List Char} (hL : '\n' ∉ L) (acc : List Char) :
    splitLinesGo acc L =
      (if acc.reverse ++ L = [] then [] else [acc.reverse ++ L]) := by
  induction L generalizing acc with
  | nil => simp [splitLinesGo]
  | cons x t ih =>
    have hx : x ≠ '\n' := fun he => hL (he ▸ List.mem_cons_self x t)
    rw [splitLinesGo, if_neg hx, ih (fun hm => hL (List.mem_cons_of_mem x hm))]
    simp

lemma splitLines_flatten_of_wf {ls : List (List Char)} (h : wfLines ls) :
    splitLines ls.flatten = ls := by
  induction ls with
  | nil => rfl
  | cons L rest ih =>
    match rest, h with
    | [], h =>
      rcases h with ⟨c, rfl, hc⟩ | ⟨hne, hnn⟩
      · unfold splitLines
        rw [List.flatten_cons, List.flatten_nil, List.append_nil,
            splitLinesGo_line hc]
        simp [splitLinesGo]
      · unfold splitLines
        rw [List.flatten_cons, List.flatten_nil, List.append_nil,
            splitLinesGo_noNL hnn]
        simp [hne]
    | K :: rest2, h =>
      obtain ⟨⟨c, rfl, hc⟩, hrest⟩ := h
      unfold splitLines
      rw [List.flatten_cons, List.append_assoc, List.cons_append,
          show ('\n' :: ([] ++ (K :: rest2).flatten)) =
            '\n' :: (K :: rest2).flatten by simp,
          splitLinesGo_line hc]
      have := ih hrest
      unfold splitLines at this
      rw [this]
      simp

lemma wf_splitLinesGo {acc : List Char} (hacc : '\n' ∉ acc)
    (s : List Char) : wfLines (splitLinesGo acc s) := by
  induction s generalizing acc with
  | nil =>
    rw [splitLinesGo]
    split
    · trivial
    · next hne =>
      refine Or.inr ⟨by simpa using hne, ?_⟩
      simpa using hacc
  | cons x t ih =>
    rw [splitLinesGo]
    by_cases hx : x = '\n'
    · rw [if_pos hx]
      refine wfLines_cons_of ⟨acc.reverse, by simp, by simpa using hacc⟩
        (ih (by simp))
    · rw [if_neg hx]
      exact ih (by
        intro hm
        rcases List.mem_cons.mp hm with hm | hm
        · exact hx hm.symm
        · exact hacc hm)

lemma wf_splitLines (s : List Char) : wfLines (splitLines s) :=
  wf_splitLinesGo (by simp) s

lemma sanitizeLines_not_dir {ls : List (List Char)} {L : List Char}
    (h : L ∈ sanitizeLines ls) :
    isDirLine javaSourceTag L = false ∧ isDirLine classpathTag L = false ∧
      isDirLine bootclasspathTag L = false :=
  ⟨removeDir_not_dir (removeDir_subset (removeDir_subset h)),
   removeDir_not_dir (removeDir_subset h),
   removeDir_not_dir h⟩

lemma wf_sanitizeLines {ls : List (List Char)} (h : wfLines ls) :
    wfLines (sanitizeLines ls) :=
  wf_removeDir _ (wf_removeDir _ (wf_removeDir _ h))

/-- Claim C8, counterexample.  The claim says exactly the directive lines
are removed and every other line passes through unchanged.  The pattern's
`^\s*` also swallows a run of blank lines immediately preceding a
directive line: for `"\n\\classpath x\n"` the leading blank line is
removed too, leaving `""` where the claim demands `"\n"`. -/
theorem c8_counterexample :
    _sanitize_key_file "\n\\classpath x\n".toList = [] ∧
    _sanitize_key_file "\n\\classpath x\n".toList ≠ ['\n'] := by
  constructor
  · decide
  · decide

/-- Claim C8 (amended): `sanitize` is idempotent, and after one pass no
newline-terminated directive line remains; but the removal also deletes
any whitespace-only run (including whole blank lines) immediately
preceding a directive line, and keeps a final directive line that lacks a
newline terminator — so removal is not exactly "the directive lines and
nothing else". -/
theorem c8_sanitize_idempotent (s : List Char) :
    _sanitize_key_file (_sanitize_key_file s) = _sanitize_key_file s ∧
    ∀ L ∈ splitLines (_sanitize_key_file s),
      isDirLine javaSourceTag L = false ∧
      isDirLine classpathTag L = false ∧
      isDirLine bootclasspathTag L = false := by
  have hs : splitLines (_sanitize_key_file s) =
      sanitizeLines (splitLines s) := by
    unfold _sanitize_key_file
    exact splitLines_flatten_of_wf (wf_sanitizeLines (wf_splitLines s))
  constructor
  · unfold _sanitize_key_file
    rw [splitLines_flatten_of_wf (wf_sanitizeLines (wf_splitLines s)),
        sanitizeLines_idem]
  · intro L hL
    rw [hs] at hL
    exact sanitizeLines_not_dir hL

/-- Claim C8, witness: idempotence on a concrete key file text. -/
theorem c8_witness :
    _sanitize_key_file
        (_sanitize_key_file "a\n\\classpath x;\n\nb\n\\javaSource y;\n".toList) =
      _sanitize_key_file "a\n\\classpath x;\n\nb\n\\javaSource y;\n".toList :=
  (c8_sanitize_idempotent "a\n\\classpath x;\n\nb\n\\javaSource y;\n".toList).1

/-! ## Helper lemmas for the extractor claims -/

lemma caselessStrip_step {p c : Char} (h : caselessEq p c = true)
    (pr t : List Char) :
    caselessStrip (p :: pr) (c :: t) = caselessStrip pr t := by
  rw [caselessStrip, if_pos h]

lemma caselessStrip_stop {p c : Char} (h : caselessEq p c = false)
    (pr t : List Char) : caselessStrip (p :: pr) (c :: t) = none := by
  rw [caselessStrip, if_neg (by rw [h]; exact Bool.false_ne_true)]

lemma scanFirst_cons_of_some {β : Type} {f : List Char → Option β}
    {c : Char} {t : List Char} {b : β} (h : f (c :: t) = some b) :
    scanFirst f (c :: t) = some b := by
  rw [scanFirst, h]

lemma grabToClose_template {X : List Char} (hX : '}' ∉ X) (r : List Char) :
    grabToClose (X ++ '}' :: r) = some (X, r) := by
  induction X with
  | nil =>
    rw [List.nil_append, grabToClose, if_pos rfl]
  | cons x t ih =>
    have hx : x ≠ '}' := fun he => hX (he ▸ List.mem_cons_self x t)
    rw [List.cons_append, grabToClose, if_neg hx,
        ih (fun hm => hX (List.mem_cons_of_mem x hm))]
    rfl

lemma tagMatchAt_template {tag w X : List Char}
    (hw : ∀ c ∈ w, isSpaceChar c) (hX : '}' ∉ X) (r : List Char) :
    tagMatchAt tag (tag ++ (w ++ '{' :: (X ++ '}' :: r))) = some X := by
  unfold tagMatchAt
  rw [caselessStrip_append_self, Option.some_bind,
      expectChar_template (by decide) hw, Option.some_bind,
      grabToClose_template hX]
  rfl

lemma tagMatchAt_none_of_strip {tag s : List Char}
    (h : caselessStrip tag s = none) : tagMatchAt tag s = none := by
  unfold tagMatchAt
  rw [h]
  rfl

lemma tagMatchAt_cons_ne {tl : List Char} {c : Char} (hc : c ≠ '\\')
    (t : List Char) : tagMatchAt ('\\' :: tl) (c :: t) = none :=
  tagMatchAt_none_of_strip (caselessStrip_stop (caselessEq_backslash hc) tl t)

/-- `\post` cannot match where the text reads `\pr…`. -/
lemma tagMatchAt_post_skip_pre (t : List Char) :
    tagMatchAt postTag ('\\' :: 'p' :: 'r' :: t) = none := by
  apply tagMatchAt_none_of_strip
  rw [show postTag = '\\' :: 'p' :: 'o' :: 's' :: 't' :: [] from rfl,
      caselessStrip_step (by decide), caselessStrip_step (by decide),
      caselessStrip_stop (by decide)]

/-- `\pre` cannot match where the text reads `\pro…`. -/
lemma tagMatchAt_pre_skip_prob (t : List Char) :
    tagMatchAt preTag ('\\' :: 'p' :: 'r' :: 'o' :: t) = none := by
  apply tagMatchAt_none_of_strip
  rw [show preTag = '\\' :: 'p' :: 'r' :: 'e' :: [] from rfl,
      caselessStrip_step (by decide), caselessStrip_step (by decide),
      caselessStrip_step (by decide), caselessStrip_stop (by decide)]

/-- A tag `\p…` cannot match where the text reads `\c…` with `c ≠ p`. -/
lemma tagMatchAt_p_skip {tl : List Char} {c : Char}
    (hc : caselessEq 'p' c = false) (t : List Char) :
    tagMatchAt ('\\' :: 'p' :: tl) ('\\' :: c :: t) = none := by
  apply tagMatchAt_none_of_strip
  rw [caselessStrip_step (by decide), caselessStrip_stop hc]

lemma ws_ne_backslash {w : List Char} (hw : ∀ c ∈ w, isSpaceChar c) :
    ∀ c ∈ w, c ≠ '\\' :=
  fun c hc => isSpaceChar_ne_backslash (hw c hc)

lemma tagMatchAt_pre_cons_ne {c : Char} (hc : c ≠ '\\') (t : List Char) :
    tagMatchAt preTag (c :: t) = none := tagMatchAt_cons_ne hc t

lemma tagMatchAt_post_cons_ne {c : Char} (hc : c ≠ '\\') (t : List Char) :
    tagMatchAt postTag (c :: t) = none := tagMatchAt_cons_ne hc t

/-! ## Claim C2: explicit-block extraction -/

/-- Claim C2, counterexample.  The claim promises the capture of a block
delimited by balanced braces; the regex's lazy group stops at the FIRST
`}`, so `\pre{a{b}c}` yields `a{b`, not `a{b}c`. -/
theorem c2_counterexample :
    extract_pre_post_from_key "\\pre\x7ba\x7bb\x7dc\x7d\\post\x7bd\x7d".toList =
      .ok ("a\x7bb".toList, "d".toList) ∧
    extract_pre_post_from_key "\\pre\x7ba\x7bb\x7dc\x7d\\post\x7bd\x7d".toList ≠
      .ok ("a\x7bb\x7dc".toList, "d".toList) := by
  constructor
  · decide
  · decide

/-- Claim C2 (amended): for a script `A \pre{X} M \post{Y} Z` where the
backslash does not occur before the tags (in `A`, `X`, `M`) and the block
bodies `X`, `Y` contain no closing brace, `extract` returns exactly
`(X, Y)` stripped of surrounding whitespace — for any whitespace between
tag and brace, any case of the tags, and regardless of what follows
(grammar 1 takes precedence over grammar 2); when a body contains a `}`,
the capture ends at the first `}` instead of the balancing one. -/
theorem c2_explicit_blocks (A w1 X M w2 Y Z : List Char)
    (hA : ∀ c ∈ A, c ≠ '\\') (hw1 : ∀ c ∈ w1, isSpaceChar c)
    (hw2 : ∀ c ∈ w2, isSpaceChar c)
    (hXb : '\\' ∉ X) (hXc : '}' ∉ X)
    (hM : ∀ c ∈ M, c ≠ '\\') (hY : '}' ∉ Y) :
    extract_pre_post_from_key
      (A ++ '\\' :: 'p' :: 'r' :: 'e' :: (w1 ++ '{' :: (X ++ '}' ::
        (M ++ '\\' :: 'p' :: 'o' :: 's' :: 't' ::
          (w2 ++ '{' :: (Y ++ '}' :: Z)))))) =
      .ok (stripBoth X, stripBoth Y) := by
  have hpre : findTag preTag
      (A ++ '\\' :: 'p' :: 'r' :: 'e' :: (w1 ++ '{' :: (X ++ '}' ::
        (M ++ '\\' :: 'p' :: 'o' :: 's' :: 't' ::
          (w2 ++ '{' :: (Y ++ '}' :: Z)))))) = some X := by
    unfold findTag
    rw [scanFirst_skip_chunk (fun c hc t => tagMatchAt_pre_cons_ne (hA c hc) t)]
    apply scanFirst_cons_of_some
    exact tagMatchAt_template hw1 hXc
      (M ++ '\\' :: 'p' :: 'o' :: 's' :: 't' :: (w2 ++ '{' :: (Y ++ '}' :: Z)))
  have hpost : findTag postTag
      (A ++ '\\' :: 'p' :: 'r' :: 'e' :: (w1 ++ '{' :: (X ++ '}' ::
        (M ++ '\\' :: 'p' :: 'o' :: 's' :: 't' ::
          (w2 ++ '{' :: (Y ++ '}' :: Z)))))) = some Y := by
    unfold findTag
    rw [scanFirst_skip_chunk (fun c hc t => tagMatchAt_post_cons_ne (hA c hc) t)]
    rw [scanFirst_cons_of_none (tagMatchAt_post_skip_pre _)]
    rw [show ('p' :: 'r' :: 'e' :: (w1 ++ '{' :: (X ++ '}' ::
          (M ++ '\\' :: 'p' :: 'o' :: 's' :: 't' ::
            (w2 ++ '{' :: (Y ++ '}' :: Z)))))) =
        ['p', 'r', 'e'] ++ (w1 ++ '{' :: (X ++ '}' ::
          (M ++ '\\' :: 'p' :: 'o' :: 's' :: 't' ::
            (w2 ++ '{' :: (Y ++ '}' :: Z))))) from rfl,
        scanFirst_skip_chunk (fun c hc t =>
          tagMatchAt_post_cons_ne (fun he => absurd (he ▸ hc) (by decide)) t)]
    rw [scanFirst_skip_chunk (fun c hc t =>
          tagMatchAt_post_cons_ne (ws_ne_backslash hw1 c hc) t)]
    rw [show ('{' :: (X ++ '}' :: (M ++ '\\' :: 'p' :: 'o' :: 's' :: 't' ::
            (w2 ++ '{' :: (Y ++ '}' :: Z))))) =
        ['{'] ++ (X ++ '}' :: (M ++ '\\' :: 'p' :: 'o' :: 's' :: 't' ::
            (w2 ++ '{' :: (Y ++ '}' :: Z)))) from rfl,
        scanFirst_skip_chunk (fun c hc t =>
          tagMatchAt_post_cons_ne (fun he => absurd (he ▸ hc) (by decide)) t)]
    rw [scanFirst_skip_chunk (fun c hc t =>
          tagMatchAt_post_cons_ne (fun he => hXb (he ▸ hc)) t)]
    rw [show ('}' :: (M ++ '\\' :: 'p' :: 'o' :: 's' :: 't' ::
            (w2 ++ '{' :: (Y ++ '}' :: Z)))) =
        ['}'] ++ (M ++ '\\' :: 'p' :: 'o' :: 's' :: 't' ::
            (w2 ++ '{' :: (Y ++ '}' :: Z))) from rfl,
        scanFirst_skip_chunk (fun c hc t =>
          tagMatchAt_post_cons_ne (fun he => absurd (he ▸ hc) (by decide)) t)]
    rw [scanFirst_skip_chunk (fun c hc t =>
          tagMatchAt_post_cons_ne (hM c hc) t)]
    apply scanFirst_cons_of_some
    exact tagMatchAt_template hw2 hY Z
  unfold extract_pre_post_from_key
  rw [hpre, hpost]

/-- Claim C2, witness: `junk \PRE  { x>0 } mid \post{y<1} tail`. -/
theorem c2_witness :
    extract_pre_post_from_key
      ("junk ".toList ++ '\\' :: 'p' :: 'r' :: 'e' ::
        ("  \n".toList ++ '{' :: (" x>0 ".toList ++ '}' ::
          (" mid ".toList ++ '\\' :: 'p' :: 'o' :: 's' :: 't' ::
            ([] ++ '{' :: ("y<1".toList ++ '}' :: " tail".toList)))))) =
      .ok (stripBoth " x>0 ".toList, stripBoth "y<1".toList) :=
  c2_explicit_blocks "junk ".toList "  \n".toList " x>0 ".toList
    " mid ".toList [] "y<1".toList " tail".toList
    (by decide) (by decide) (by decide) (by decide) (by decide) (by decide)
    (by decide)

/-! Helper lemmas for the structured-problem grammar. -/

lemma rstripL_all_ws {l : List Char} (h : ∀ c ∈ l, isSpaceChar c) :
    rstripL l = [] := by
  unfold rstripL
  rw [List.dropWhile_eq_nil_iff.mpr (fun c hc => h c (List.mem_reverse.mp hc))]
  rfl

lemma rstripL_eq_nil_iff {l : List Char} :
    rstripL l = [] ↔ ∀ c ∈ l, isSpaceChar c := by
  constructor
  · intro h c hc
    by_contra hns
    have : l.reverse.dropWhile isSpaceChar = [] := by
      have := congrArg List.reverse h
      simpa [rstripL] using this
    rw [List.dropWhile_eq_nil_iff] at this
    exact hns (this c (List.mem_reverse.mpr hc))
  · exact rstripL_all_ws

lemma rstripL_cons_of_ne {l : List Char} (h : rstripL l ≠ []) (c : Char) :
    rstripL (c :: l) = c :: rstripL l := by
  unfold rstripL
  rw [show (c :: l).reverse = l.reverse ++ [c] by simp, List.dropWhile_append]
  have hne : ¬ (l.reverse.dropWhile isSpaceChar).isEmpty = true := by
    intro he
    apply h
    rw [List.isEmpty_iff] at he
    simp [rstripL, he]
  rw [if_neg hne]
  simp

lemma skipWs_head_not {l : List Char} {c : Char} {t : List Char}
    (h : skipWs l = c :: t) : isSpaceChar c = false := by
  have := List.head?_dropWhile_not isSpaceChar l
  rw [show l.dropWhile isSpaceChar = c :: t from h] at this
  simpa using this

lemma skipWs_append (A B : List Char) :
    skipWs (A ++ B) =
      if (skipWs A).isEmpty then skipWs B else skipWs A ++ B := by
  simpa [skipWs] using (List.dropWhile_append (p := isSpaceChar) :
    (A ++ B).dropWhile isSpaceChar = _)


lemma stripBoth_stripBoth (l : List Char) :
    stripBoth (stripBoth l) = stripBoth l := by
  unfold stripBoth
  match hs : skipWs l with
  | [] => simp [rstripL_nil, skipWs]
  | c :: t =>
    have hc : ¬ isSpaceChar c = true := by
      rw [skipWs_head_not hs]; exact Bool.false_ne_true
    rw [rstripL_cons_of_not hc, skipWs_cons_of_not hc,
        rstripL_cons_of_not hc, rstripL_idem]

lemma expectChar_cons_self (c0 : Char) (hc0 : ¬ isSpaceChar c0)
    (s : List Char) : expectChar c0 (c0 :: s) = some s := by
  have := expectChar_template hc0 (w := []) (fun c hc => absurd hc (by simp)) s
  simpa using this

/-- `(?P<post>.*?)\s*\}`: on `Q ++ wH ++ '}' :: tail` with `}` not in `Q`,
the lazy capture is `Q` minus its trailing whitespace. -/
lemma postScan_template {Q : List Char} (hQ : '}' ∉ Q) {wH : List Char}
    (hw : ∀ c ∈ wH, isSpaceChar c) (tail : List Char) :
    postScan (Q ++ (wH ++ '}' :: tail)) = some (rstripL Q) := by
  induction Q with
  | nil =>
    rw [List.nil_append, rstripL_nil]
    have hclose : closesHere (wH ++ '}' :: tail) = true := by
      unfold closesHere
      rw [expectChar_template (by decide) hw]
      rfl
    match wH, hw with
    | [], _ =>
      rw [List.nil_append, postScan, if_pos (by simpa using hclose)]
    | w :: wH2, hw =>
      rw [List.cons_append, postScan,
          if_pos (by simpa [List.cons_append] using hclose)]
  | cons q Q' ih =>
    rw [List.cons_append, postScan]
    by_cases hq : isSpaceChar q = true
    · by_cases hnot : ∀ c ∈ Q', isSpaceChar c = true
      case pos =>
        -- all of Q' is whitespace: the pattern closes right here
        have hcl : closesHere (q :: (Q' ++ (wH ++ '}' :: tail))) = true := by
          unfold closesHere
          rw [show q :: (Q' ++ (wH ++ '}' :: tail)) =
                (q :: Q' ++ wH) ++ '}' :: tail by simp]
          rw [expectChar_template (by decide) (by
            intro c hc
            rcases List.mem_append.mp hc with hc | hc
            · rcases List.mem_cons.mp hc with hc | hc
              · exact hc ▸ hq
              · exact hnot c hc
            · exact hw c hc)]
          rfl
        rw [if_pos (by simpa using hcl)]
        rw [rstripL_all_ws (by
          intro c hc
          rcases List.mem_cons.mp hc with hc | hc
          · exact hc ▸ hq
          · exact hnot c hc)]
      case neg =>
        have hrne : rstripL Q' ≠ [] := by
          intro he
          exact hnot (rstripL_eq_nil_iff.mp he)
        have hskip : ∃ q' T, skipWs Q' = q' :: T := by
          match hsq : skipWs Q' with
          | [] =>
            exact absurd (fun c hc => List.dropWhile_eq_nil_iff.mp hsq c hc)
              hnot
          | q' :: T => exact ⟨q', T, rfl⟩
        obtain ⟨q', T, hsq⟩ := hskip
        have hq'mem : q' ∈ Q' := by
          have hsub : List.Sublist (skipWs Q') Q' := List.dropWhile_sublist _
          exact hsub.mem (hsq ▸ List.mem_cons_self q' T)
        have hq'ns : isSpaceChar q' = false := skipWs_head_not hsq
        have hq'ne : q' ≠ '}' := fun he =>
          hQ (List.mem_cons_of_mem q (he ▸ hq'mem))
        have hcl : closesHere (q :: (Q' ++ (wH ++ '}' :: tail))) = false := by
          unfold closesHere expectChar
          rw [show skipWs (q :: (Q' ++ (wH ++ '}' :: tail))) =
                skipWs (Q' ++ (wH ++ '}' :: tail)) by
              rw [show q :: (Q' ++ (wH ++ '}' :: tail)) =
                    [q] ++ (Q' ++ (wH ++ '}' :: tail)) from rfl,
                  skipWs_append_of_ws (by simpa using hq)]]
          rw [skipWs_append, hsq]
          rw [if_neg (by simp)]
          rw [List.cons_append]
          simp [hq'ne]
        rw [if_neg (by rw [hcl]; exact Bool.false_ne_true),
            ih (fun hm => hQ (List.mem_cons_of_mem q hm))]
        rw [rstripL_cons_of_ne hrne]
        rfl
    · have hcl : closesHere (q :: (Q' ++ (wH ++ '}' :: tail))) = false := by
        unfold closesHere expectChar
        rw [skipWs_cons_of_not hq]
        have hqne : q ≠ '}' := fun he => hQ (he ▸ List.mem_cons_self q Q')
        simp [hqne]
      rw [if_neg (by rw [hcl]; exact Bool.false_ne_true),
          ih (fun hm => hQ (List.mem_cons_of_mem q hm))]
      rw [rstripL_cons_of_not hq]
      rfl

lemma lazyProgBody_template {P : List Char} (hP : '}' ∉ P)
    {r : List Char} {post : List Char} (hcl : progClose r = some post) :
    lazyProgBody (P ++ '}' :: r) = some post := by
  induction P with
  | nil =>
    rw [List.nil_append, lazyProgBody, if_pos rfl, hcl]
  | cons x t ih =>
    have hx : x ≠ '}' := fun he => hP (he ▸ List.mem_cons_self x t)
    rw [List.cons_append, lazyProgBody, if_neg hx,
        ih (fun hm => hP (List.mem_cons_of_mem x hm))]

lemma lazyUpdBody_template {U : List Char} (hU : '}' ∉ U)
    {r : List Char} {post : List Char} (hcl : updClose r = some post) :
    lazyUpdBody (U ++ '}' :: r) = some post := by
  induction U with
  | nil =>
    rw [List.nil_append, lazyUpdBody, if_pos rfl, hcl]
  | cons x t ih =>
    have hx : x ≠ '}' := fun he => hU (he ▸ List.mem_cons_self x t)
    rw [List.cons_append, lazyUpdBody, if_neg hx,
        ih (fun hm => hU (List.mem_cons_of_mem x hm))]

/-- `(?P<pre>.*?)\s*->` followed by the rest of the pattern: the lazy
capture closes at the first `->`, minus the preceding whitespace. -/
lemma preScan_template {PRE : List Char} (hP : '-' ∉ PRE)
    {wA rest post : List Char} (hw : ∀ c ∈ wA, isSpaceChar c)
    (hcont : afterArrow rest = some post) :
    ∀ acc, preScan acc (PRE ++ (wA ++ '-' :: '>' :: rest)) =
      some (acc.reverse ++ rstripL PRE, post) := by
  have harrow : (arrowCheck (wA ++ '-' :: '>' :: rest)).bind afterArrow =
      some post := by
    unfold arrowCheck
    rw [skipWs_append_of_ws hw, skipWs_cons_of_not (by decide),
        show ('-' :: '>' :: rest) = arrowLit ++ rest from rfl,
        stripLit_append_self, Option.some_bind, hcont]
  induction PRE with
  | nil =>
    intro acc
    rw [List.nil_append, rstripL_nil, List.append_nil]
    match wA, hw, harrow with
    | [], _, harrow =>
      rw [List.nil_append] at harrow ⊢
      rw [preScan, harrow]
    | w :: wA2, hw, harrow =>
      rw [List.cons_append] at harrow ⊢
      rw [preScan, harrow]
  | cons p PRE' ih =>
    intro acc
    have hP' : '-' ∉ PRE' := fun hm => hP (List.mem_cons_of_mem p hm)
    by_cases hp : isSpaceChar p = true
    · by_cases hall : ∀ c ∈ PRE', isSpaceChar c = true
      · -- the rest of the capture is all whitespace: the arrow is next
        have hchk : (arrowCheck (p :: (PRE' ++ (wA ++ '-' :: '>' :: rest)))).bind
            afterArrow = some post := by
          unfold arrowCheck
          rw [show p :: (PRE' ++ (wA ++ '-' :: '>' :: rest)) =
                (p :: PRE' ++ wA) ++ '-' :: '>' :: rest by simp]
          rw [skipWs_append_of_ws (by
                intro c hc
                rcases List.mem_append.mp hc with hc | hc
                · rcases List.mem_cons.mp hc with hc | hc
                  · exact hc ▸ hp
                  · exact hall c hc
                · exact hw c hc),
              skipWs_cons_of_not (by decide),
              show ('-' :: '>' :: rest) = arrowLit ++ rest from rfl,
              stripLit_append_self, Option.some_bind, hcont]
        rw [List.cons_append, preScan, hchk]
        rw [rstripL_all_ws (by
          intro c hc
          rcases List.mem_cons.mp hc with hc | hc
          · exact hc ▸ hp
          · exact hall c hc)]
        simp
      · -- a non-whitespace character of PRE' blocks the arrow here
        have hrne : rstripL PRE' ≠ [] := fun he =>
          hall (rstripL_eq_nil_iff.mp he)
        obtain ⟨q', T, hsq⟩ : ∃ q' T, skipWs PRE' = q' :: T := by
          match hsq : skipWs PRE' with
          | [] =>
            exact absurd (fun c hc => List.dropWhile_eq_nil_iff.mp hsq c hc)
              hall
          | q' :: T => exact ⟨q', T, rfl⟩
        have hq'mem : q' ∈ PRE' :=
          (List.dropWhile_sublist _).mem (hsq ▸ List.mem_cons_self q' T)
        have hq'ne : q' ≠ '-' := fun he =>
          hP (List.mem_cons_of_mem p (he ▸ hq'mem))
        have hchk : (arrowCheck (p :: (PRE' ++ (wA ++ '-' :: '>' :: rest)))).bind
            afterArrow = none := by
          unfold arrowCheck
          rw [show p :: (PRE' ++ (wA ++ '-' :: '>' :: rest)) =
                [p] ++ (PRE' ++ (wA ++ '-' :: '>' :: rest)) from rfl,
              skipWs_append_of_ws (by simpa using hp),
              skipWs_append, hsq, if_neg (by simp), List.cons_append,
              show stripLit arrowLit (q' :: (T ++ (wA ++ '-' :: '>' :: rest)))
                = none by
                rw [show arrowLit = '-' :: ['>'] from rfl, stripLit,
                    if_neg (fun he => hq'ne he.symm)]]
          rfl
        rw [List.cons_append, preScan, hchk, ih hP' (p :: acc)]
        rw [rstripL_cons_of_ne hrne]
        simp
    · have hpne : p ≠ '-' := fun he => hP (he ▸ List.mem_cons_self p PRE')
      have hchk : (arrowCheck (p :: (PRE' ++ (wA ++ '-' :: '>' :: rest)))).bind
          afterArrow = none := by
        unfold arrowCheck
        rw [skipWs_cons_of_not hp,
            show arrowLit = '-' :: ['>'] from rfl, stripLit,
            if_neg (fun he => hpne he.symm)]
        rfl
      rw [List.cons_append, preScan, hchk, ih hP' (p :: acc)]
      rw [rstripL_cons_of_not hp]
      simp

lemma mem_skipWs {l : List Char} {c : Char} (h : c ∈ skipWs l) : c ∈ l :=
  (List.dropWhile_sublist _).mem h

lemma preScan_skip_template {PRE : List Char} (hP : '-' ∉ PRE)
    {wA rest post : List Char} (hw : ∀ c ∈ wA, isSpaceChar c)
    (hcont : afterArrow rest = some post) :
    preScan [] (skipWs (PRE ++ (wA ++ '-' :: '>' :: rest))) =
      some (stripBoth PRE, post) := by
  rw [skipWs_append]
  by_cases he : (skipWs PRE).isEmpty = true
  · rw [if_pos he, skipWs_append_of_ws hw, skipWs_cons_of_not (by decide)]
    have := preScan_template (by simp : ('-' : Char) ∉ ([] : List Char))
      (by simp : ∀ c ∈ ([] : List Char), isSpaceChar c) hcont []
    rw [show stripBoth PRE = [] by
      unfold stripBoth
      rw [List.isEmpty_iff.mp he, rstripL_nil]]
    simpa using this
  · rw [if_neg he]
    have := preScan_template
      (show ('-' : Char) ∉ skipWs PRE from fun hm => hP (mem_skipWs hm))
      hw hcont []
    simpa [stripBoth] using this

lemma postScan_skip_template {Q : List Char} (hQ : '}' ∉ Q)
    {wH : List Char} (hw : ∀ c ∈ wH, isSpaceChar c) (tail : List Char) :
    postScan (skipWs (Q ++ (wH ++ '}' :: tail))) = some (stripBoth Q) := by
  rw [skipWs_append]
  by_cases he : (skipWs Q).isEmpty = true
  · rw [if_pos he, skipWs_append_of_ws hw, skipWs_cons_of_not (by decide)]
    have := postScan_template (by simp : ('}' : Char) ∉ ([] : List Char))
      (by simp : ∀ c ∈ ([] : List Char), isSpaceChar c) tail
    rw [show stripBoth Q = [] by
      unfold stripBoth
      rw [List.isEmpty_iff.mp he, rstripL_nil]]
    simpa [rstripL_nil] using this
  · rw [if_neg he]
    exact postScan_template (fun hm => hQ (mem_skipWs hm)) hw tail

/-- `\s*\\>\s*(?P<post>.*?)\s*\}` on its template: the capture is `POST`
stripped of surrounding whitespace (it stops at the first `}`). -/
lemma progClose_of {wE POST wH : List Char}
    (hwE : ∀ c ∈ wE, isSpaceChar c) (hQ : '}' ∉ POST)
    (hwH : ∀ c ∈ wH, isSpaceChar c) (tail : List Char) :
    progClose (wE ++ '\\' :: '>' :: (POST ++ (wH ++ '}' :: tail))) =
      some (stripBoth POST) := by
  unfold progClose
  rw [skipWs_append_of_ws hwE, skipWs_cons_of_not (by decide),
      show ('\\' :: '>' :: (POST ++ (wH ++ '}' :: tail))) =
        rAngleLit ++ (POST ++ (wH ++ '}' :: tail)) from rfl,
      stripLit_append_self, Option.some_bind]
  exact postScan_skip_template hQ hwH tail

/-- `\s*\\<\s*\{` plus the program fragment, on its template. -/
lemma updClose_of {wC wD P : List Char} {r2 post : List Char}
    (hwC : ∀ c ∈ wC, isSpaceChar c) (hwD : ∀ c ∈ wD, isSpaceChar c)
    (hPr : '}' ∉ P) (hcl : progClose r2 = some post) :
    updClose (wC ++ '\\' :: '<' :: (wD ++ '{' :: (P ++ '}' :: r2))) =
      some post := by
  unfold updClose
  rw [skipWs_append_of_ws hwC, skipWs_cons_of_not (by decide),
      show ('\\' :: '<' :: (wD ++ '{' :: (P ++ '}' :: r2))) =
        lAngleLit ++ (wD ++ '{' :: (P ++ '}' :: r2)) from rfl,
      stripLit_append_self, Option.some_bind,
      expectChar_template (by decide) hwD, Option.some_bind]
  exact lazyProgBody_template hPr hcl

/-- `\s*\{` plus the update block, on its template (the part after `->`). -/
lemma afterArrow_of {wB U : List Char} {r1 post : List Char}
    (hwB : ∀ c ∈ wB, isSpaceChar c) (hU : '}' ∉ U)
    (hcl : updClose r1 = some post) :
    afterArrow (wB ++ '{' :: (U ++ '}' :: r1)) = some post := by
  unfold afterArrow
  rw [expectChar_template (by decide) hwB, Option.some_bind]
  exact lazyUpdBody_template hU hcl

/-- The whole `_PROBLEM_RE` matched at the start of its general template. -/
lemma probMatchAt_template {w0 w1 PRE wA : List Char} {rest post : List Char}
    (hw0 : ∀ c ∈ w0, isSpaceChar c) (hw1 : ∀ c ∈ w1, isSpaceChar c)
    (hP1 : '-' ∉ PRE) (hwA : ∀ c ∈ wA, isSpaceChar c)
    (hcont : afterArrow rest = some post) :
    probMatchAt (probLit ++
        (w0 ++ '{' :: (w1 ++ (PRE ++ (wA ++ '-' :: '>' :: rest))))) =
      some (stripBoth PRE, post) := by
  unfold probMatchAt
  rw [caselessStrip_append_self, Option.some_bind,
      expectChar_template (by decide) hw0, Option.some_bind,
      skipWs_append_of_ws hw1]
  exact preScan_skip_template hP1 hwA hcont

/-- A successful match at the head of the text is what `re.search` returns. -/
lemma probSearch_of_head {s : List Char} {b : List Char × List Char}
    (h : probMatchAt (probLit ++ s) = some b) :
    probSearch (probLit ++ s) = some b := by
  unfold probSearch
  rw [show probLit ++ s =
      '\\' :: ('p' :: 'r' :: 'o' :: 'b' :: 'l' :: 'e' :: 'm' :: s) from rfl]
    at h ⊢
  exact scanFirst_cons_of_some h

/-- Claim C3, counterexample: in
`\problem \x7b a>0 -> \x7bu\x7d \<\x7bp;\x7d\> b\x7bc\x7dd \x7d` the text
after the program fragment up to the matching closing brace of `problem`
is `b\x7bc\x7dd`, but the `post` capture stops at the first `\}` of the
pattern, so extraction returns `b\x7bc`. -/
theorem c3_counterexample :
    extract_pre_post_from_key
      "\\problem \x7b a>0 -> \x7bu\x7d \\<\x7bp;\x7d\\> b\x7bc\x7dd \x7d".toList =
      .ok ("a>0".toList, "b\x7bc".toList) ∧
    extract_pre_post_from_key
      "\\problem \x7b a>0 -> \x7bu\x7d \\<\x7bp;\x7d\\> b\x7bc\x7dd \x7d".toList ≠
      .ok ("a>0".toList, "b\x7bc\x7dd".toList) := by
  constructor
  · decide
  · decide

/-- Claim C3 (amended): for a script in structured-problem form
`\problem \x7b PRE -> \x7bU\x7d \<\x7bP\x7d\> POST \x7d` (with any
whitespace at the joints) that yields no grammar-1 tags, extraction
returns `(PRE, POST)` stripped of surrounding whitespace, where `PRE` is
the text before the first `->` and `POST` is the text after the program
fragment up to the FIRST closing brace (not the matching closing brace of
`problem`): hence the hypotheses that `U`, `P` and `POST` contain no `\}`
and `PRE` no `-`. -/
theorem c3_problem_form
    (w0 w1 PRE wA wB U wC wD P wE POST wH tail : List Char)
    (hw0 : ∀ c ∈ w0, isSpaceChar c) (hw1 : ∀ c ∈ w1, isSpaceChar c)
    (hwA : ∀ c ∈ wA, isSpaceChar c) (hwB : ∀ c ∈ wB, isSpaceChar c)
    (hwC : ∀ c ∈ wC, isSpaceChar c) (hwD : ∀ c ∈ wD, isSpaceChar c)
    (hwE : ∀ c ∈ wE, isSpaceChar c) (hwH : ∀ c ∈ wH, isSpaceChar c)
    (hP1 : '-' ∉ PRE) (hU : '}' ∉ U) (hPr : '}' ∉ P) (hQ : '}' ∉ POST)
    (hng : findTag preTag (probLit ++
        (w0 ++ '{' :: (w1 ++ (PRE ++ (wA ++ '-' :: '>' ::
          (wB ++ '{' :: (U ++ '}' :: (wC ++ '\\' :: '<' ::
            (wD ++ '{' :: (P ++ '}' :: (wE ++ '\\' :: '>' ::
              (POST ++ (wH ++ '}' :: tail))))))))))))) = none ∨
      findTag postTag (probLit ++
        (w0 ++ '{' :: (w1 ++ (PRE ++ (wA ++ '-' :: '>' ::
          (wB ++ '{' :: (U ++ '}' :: (wC ++ '\\' :: '<' ::
            (wD ++ '{' :: (P ++ '}' :: (wE ++ '\\' :: '>' ::
              (POST ++ (wH ++ '}' :: tail))))))))))))) = none) :
    extract_pre_post_from_key (probLit ++
        (w0 ++ '{' :: (w1 ++ (PRE ++ (wA ++ '-' :: '>' ::
          (wB ++ '{' :: (U ++ '}' :: (wC ++ '\\' :: '<' ::
            (wD ++ '{' :: (P ++ '}' :: (wE ++ '\\' :: '>' ::
              (POST ++ (wH ++ '}' :: tail))))))))))))) =
      .ok (stripBoth PRE, stripBoth POST) := by
  have hprog : progClose (wE ++ '\\' :: '>' :: (POST ++ (wH ++ '}' :: tail)))
      = some (stripBoth POST) := progClose_of hwE hQ hwH tail
  have hupd : updClose (wC ++ '\\' :: '<' ::
      (wD ++ '{' :: (P ++ '}' :: (wE ++ '\\' :: '>' ::
        (POST ++ (wH ++ '}' :: tail)))))) = some (stripBoth POST) :=
    updClose_of hwC hwD hPr hprog
  have hcont : afterArrow (wB ++ '{' :: (U ++ '}' :: (wC ++ '\\' :: '<' ::
      (wD ++ '{' :: (P ++ '}' :: (wE ++ '\\' :: '>' ::
        (POST ++ (wH ++ '}' :: tail)))))))) = some (stripBoth POST) :=
    afterArrow_of hwB hU hupd
  have hsearch : probSearch (probLit ++
      (w0 ++ '{' :: (w1 ++ (PRE ++ (wA ++ '-' :: '>' ::
        (wB ++ '{' :: (U ++ '}' :: (wC ++ '\\' :: '<' ::
          (wD ++ '{' :: (P ++ '}' :: (wE ++ '\\' :: '>' ::
            (POST ++ (wH ++ '}' :: tail))))))))))))) =
      some (stripBoth PRE, stripBoth POST) :=
    probSearch_of_head (probMatchAt_template hw0 hw1 hP1 hwA hcont)
  unfold extract_pre_post_from_key
  rcases h1 : findTag preTag (probLit ++
      (w0 ++ '{' :: (w1 ++ (PRE ++ (wA ++ '-' :: '>' ::
        (wB ++ '{' :: (U ++ '}' :: (wC ++ '\\' :: '<' ::
          (wD ++ '{' :: (P ++ '}' :: (wE ++ '\\' :: '>' ::
            (POST ++ (wH ++ '}' :: tail))))))))))))) with _ | x <;>
    rcases h2 : findTag postTag (probLit ++
        (w0 ++ '{' :: (w1 ++ (PRE ++ (wA ++ '-' :: '>' ::
          (wB ++ '{' :: (U ++ '}' :: (wC ++ '\\' :: '<' ::
            (wD ++ '{' :: (P ++ '}' :: (wE ++ '\\' :: '>' ::
              (POST ++ (wH ++ '}' :: tail))))))))))))) with _ | y
  · simp only []
    rw [hsearch]
    simp only []
    rw [stripBoth_stripBoth, stripBoth_stripBoth]
  · simp only []
    rw [hsearch]
    simp only []
    rw [stripBoth_stripBoth, stripBoth_stripBoth]
  · simp only []
    rw [hsearch]
    simp only []
    rw [stripBoth_stripBoth, stripBoth_stripBoth]
  · rcases hng with hng | hng
    · rw [h1] at hng
      exact Option.noConfusion hng
    · rw [h2] at hng
      exact Option.noConfusion hng

/-- Claim C3, witness: the spec's own example
`\problem \x7b a>0 -> \x7bx:=x+1\x7d \<\x7bx++;\x7d\> a>1 \x7d`
extracts to `("a>0", "a>1")`. -/
theorem c3_witness :
    extract_pre_post_from_key (probLit ++
        ([' '] ++ '{' :: ([' '] ++ ("a>0".toList ++ ([' '] ++ '-' :: '>' ::
          ([' '] ++ '{' :: ("x:=x+1".toList ++ '}' :: ([' '] ++ '\\' :: '<' ::
            ([] ++ '{' :: ("x++;".toList ++ '}' :: ([] ++ '\\' :: '>' ::
              (" a>1".toList ++ ([' '] ++ '}' :: []))))))))))))) =
      .ok ("a>0".toList, "a>1".toList) :=
  c3_problem_form [' '] [' '] "a>0".toList [' '] [' '] "x:=x+1".toList
    [' '] [] "x++;".toList [] " a>1".toList [' '] []
    (by decide) (by decide) (by decide) (by decide) (by decide) (by decide)
    (by decide) (by decide) (by decide) (by decide) (by decide) (by decide)
    (.inl (by decide))

end LLMPipeline
